import Mathlib

/-!
Shallow embedding of the `multi_agent_pathfinding` repository
(environment/grid.py, algorithms/constraints.py, algorithms/astar.py,
algorithms/cbs.py, utils/metrics.py, environment/agent_manager.py)
together with the definitions the specification's claims need.

Python machine model used throughout:
  * `dict` objects become association lists that preserve insertion order;
    updating an existing key keeps its position, a new key is appended.
  * `set` objects become duplicate-free lists; only membership is observed.
  * `heapq` is embedded function-for-function (`heappush`, `heappop`,
    `heapify` with `_siftdown` / `_siftup`), since elements compare only
    with `<` and tie order is decided by the heap layout.
  * while-loops are given an explicit fuel argument; running out of fuel
    is reported as a distinguished value so that no theorem can confuse a
    truncated run with a genuine result.
  * exceptions (`ValueError` raised by `max()` on an empty sequence,
    `IndexError` on list indexing) are modelled with `Except String`.
-/

set_option maxRecDepth 4000

namespace MAPF

/-- A grid cell, written `(row, col)` as in the Python tuples. -/
abbrev Pos := Nat × Nat

/-- A single-agent plan: the list of cells returned by the low-level search. -/
abbrev Path := List Pos

/-! ## environment/grid.py -/

/-- Embeds `GridEnvironment`: the occupancy grid (`0` free, `1` blocked)
plus the `height`/`width` fields stored by `__init__` from `grid.shape`. -/
structure GridEnvironment where
  grid : List (List Nat)
  height : Nat
  width : Nat
deriving Repr, DecidableEq

/-- Builds a `GridEnvironment` the way `__init__` does, reading the shape
off the array (all rows of a numpy 2-D array have equal length). -/
def mkGridEnvironment (g : List (List Nat)) : GridEnvironment :=
  ⟨g, g.length, (g.headD []).length⟩

/-- The move offsets used by `get_neighbors`, in source order:
wait, up, right, down, left. -/
def MOVES : List (Int × Int) := [(0, 0), (-1, 0), (0, 1), (1, 0), (0, -1)]

/-- Cell lookup `grid[nx, ny]`; the default `1` (blocked) is never reached
because every access is bounds-checked first. -/
def GridEnvironment.cellValue (env : GridEnvironment) (i j : Nat) : Nat :=
  (env.grid.getD i []).getD j 1

/-- Embeds `GridEnvironment.get_neighbors`: from space-time state
`(x, y, t)` it yields every in-bounds free cell reachable by one of the
five moves, at time `t+1`, in `MOVES` order. -/
def GridEnvironment.getNeighbors (env : GridEnvironment) (s : Nat × Nat × Nat) :
    List (Nat × Nat × Nat) :=
  let x := s.1
  let y := s.2.1
  let t := s.2.2
  MOVES.filterMap (fun m =>
    let nx : Int := (x : Int) + m.1
    let ny : Int := (y : Int) + m.2
    if 0 ≤ nx ∧ nx < (env.height : Int) ∧ 0 ≤ ny ∧ ny < (env.width : Int) ∧
        env.cellValue nx.toNat ny.toNat = 0 then
      some (nx.toNat, ny.toNat, t + 1)
    else
      none)

/-- Embeds `GridEnvironment.get_manhattan_distance`. -/
def GridEnvironment.manhattan (a b : Pos) : Nat :=
  ((a.1 : Int) - b.1).natAbs + ((a.2 : Int) - b.2).natAbs

/-! ## algorithms/constraints.py -/

/-- Embeds `VertexConstraint(agent_id, position, time)`; equality and
hashing in Python compare exactly these three fields. -/
structure VertexConstraint where
  agent : Nat
  pos : Pos
  time : Nat
deriving Repr, DecidableEq

/-- Embeds `EdgeConstraint(agent_id, from_pos, to_pos, time)`; the
inherited equality compares `(agent_id, (from_pos, to_pos), time)`. -/
structure EdgeConstraint where
  agent : Nat
  fromPos : Pos
  toPos : Pos
  time : Nat
deriving Repr, DecidableEq

/-- Embeds `ConstraintsSet`: two Python sets, modelled as duplicate-free
lists (only membership is ever observed). -/
structure ConstraintsSet where
  vertexConstraints : List VertexConstraint
  edgeConstraints : List EdgeConstraint
deriving Repr, DecidableEq

/-- The empty `ConstraintsSet()`. -/
def ConstraintsSet.empty : ConstraintsSet := ⟨[], []⟩

/-- Embeds `ConstraintsSet.add_vertex_constraint` (set insertion). -/
def ConstraintsSet.addVertexConstraint (s : ConstraintsSet) (c : VertexConstraint) :
    ConstraintsSet :=
  if c ∈ s.vertexConstraints then s else ⟨c :: s.vertexConstraints, s.edgeConstraints⟩

/-- Embeds `ConstraintsSet.add_edge_constraint` (set insertion). -/
def ConstraintsSet.addEdgeConstraint (s : ConstraintsSet) (c : EdgeConstraint) :
    ConstraintsSet :=
  if c ∈ s.edgeConstraints then s else ⟨s.vertexConstraints, c :: s.edgeConstraints⟩

/-- Embeds `ConstraintsSet.is_constrained`: vertex-constraint membership. -/
def ConstraintsSet.isConstrained (s : ConstraintsSet) (agentId : Nat) (p : Pos)
    (time : Nat) : Bool :=
  decide ((⟨agentId, p, time⟩ : VertexConstraint) ∈ s.vertexConstraints)

/-- Embeds `ConstraintsSet.is_edge_constrained`: edge-constraint membership. -/
def ConstraintsSet.isEdgeConstrained (s : ConstraintsSet) (agentId : Nat)
    (fromP toP : Pos) (time : Nat) : Bool :=
  decide ((⟨agentId, fromP, toP, time⟩ : EdgeConstraint) ∈ s.edgeConstraints)

/-! ## Python heapq

CPython's `heapq` is embedded function-for-function.  Each sift loop is
given a fuel that is provably sufficient (`_siftdown` strictly decreases
its position, `_siftup` strictly increases its child position), so the
out-of-fuel fallback is unreachable. -/

/-- Embeds `heapq._siftdown(heap, startpos, pos)` where `item` is the
`newitem` read at entry and the fuel bounds the strictly decreasing
position. -/
def siftdown (lt : α → α → Bool) (item : α) (startpos : Nat) :
    Nat → List α → Nat → List α
  | 0, heap, pos => heap.set pos item
  | fuel + 1, heap, pos =>
    if startpos < pos then
      let parentpos := (pos - 1) / 2
      let parent := heap.getD parentpos item
      if lt item parent then
        siftdown lt item startpos fuel (heap.set pos parent) parentpos
      else
        heap.set pos item
    else
      heap.set pos item

/-- Embeds `heapq.heappush`: append, then sift the new item down towards
the root. -/
def heappush (lt : α → α → Bool) (heap : List α) (item : α) : List α :=
  siftdown lt item 0 (heap.length + 1) (heap ++ [item]) heap.length

/-- Embeds the loop of `heapq._siftup`: walk `pos` down to a leaf,
pulling the smaller child up; returns the final heap and position. -/
def siftupLoop (lt : α → α → Bool) (item : α) (endpos : Nat) :
    Nat → List α → Nat → List α × Nat
  | 0, heap, pos => (heap, pos)
  | fuel + 1, heap, pos =>
    let childpos := 2 * pos + 1
    if childpos < endpos then
      let rightpos := childpos + 1
      let childpos :=
        if rightpos < endpos && !(lt (heap.getD childpos item) (heap.getD rightpos item)) then
          rightpos
        else
          childpos
      siftupLoop lt item endpos fuel (heap.set pos (heap.getD childpos item)) childpos
    else
      (heap, pos)

/-- Embeds `heapq._siftup(heap, pos)`; `dflt` is only used for the entry
read `newitem = heap[pos]`, which is in range at every call site. -/
def siftup (lt : α → α → Bool) (heap : List α) (pos : Nat) (dflt : α) : List α :=
  let endpos := heap.length
  let item := heap.getD pos dflt
  let hp := siftupLoop lt item endpos (endpos + 1) heap pos
  siftdown lt item pos (hp.2 + 1) hp.1 hp.2

/-- Embeds `heapq.heappop`: pop the last element, move it to the root and
sift up; `none` models popping an empty heap (never done by the code,
every pop is guarded by a non-emptiness test). -/
def heappop (lt : α → α → Bool) (heap : List α) : Option (α × List α) :=
  match heap.getLast? with
  | none => none
  | some lastelt =>
    let rest := heap.dropLast
    match rest with
    | [] => some (lastelt, [])
    | r0 :: _ => some (r0, siftup lt (rest.set 0 lastelt) 0 lastelt)

/-- Embeds the loop of `heapq.heapify`: sift up at positions
`n/2 - 1, …, 0`. -/
def heapifyLoop (lt : α → α → Bool) (dflt : α) : Nat → List α → List α
  | 0, heap => heap
  | i + 1, heap => heapifyLoop lt dflt i (siftup lt heap i dflt)

/-- Embeds `heapq.heapify`. -/
def heapify (lt : α → α → Bool) (heap : List α) (dflt : α) : List α :=
  heapifyLoop lt dflt (heap.length / 2) heap

/-! ## algorithms/astar.py -/

/-- Embeds `SippNode`: the space-time A* node.  Python nodes hold an
object reference to their parent; here nodes live in an append-only
store (`AStarState.store`) and `parent` is the parent's store index. -/
structure SippNode where
  x : Nat
  y : Nat
  t : Nat
  g : Nat
  h : Nat
  f : Nat
  parent : Option Nat
deriving Repr, DecidableEq

/-- Placeholder node for out-of-range store reads (never reached: every
store index handed out is in range). -/
def dummyNode : SippNode := ⟨0, 0, 0, 0, 0, 0, none⟩

/-- Comparison used by the open-list heap: `SippNode.__lt__` compares
`f` only.  Heap entries are store indices, resolved through the current
store exactly as Python resolves object references. -/
def nodeLt (store : List SippNode) (a b : Nat) : Bool :=
  decide ((store.getD a dummyNode).f < (store.getD b dummyNode).f)

/-- The mutable state of one `SpaceTimeAStar.search` call: the open-list
heap (store indices), the node store (Python's node objects), the closed
set, the `node_dict` keyed by `(x, y, t)`, and a ghost counter
`reopens` that counts executions of the branch that re-opens an
open-list duplicate with strictly lower `g` (instrumentation only; it
influences nothing). -/
structure AStarState where
  openList : List Nat
  store : List SippNode
  closedSet : List (Nat × Nat × Nat)
  nodeDict : List ((Nat × Nat × Nat) × Nat)
  reopens : Nat
deriving Repr, DecidableEq

/-- Association-list lookup with Python `dict.get` semantics. -/
def alookup [DecidableEq κ] (l : List (κ × β)) (k : κ) : Option β :=
  match l with
  | [] => none
  | (k', v) :: rest => if k' = k then some v else alookup rest k

/-- The initial search state: the start node pushed with `g = 0`,
`t = 0` and `h` the Manhattan distance to the goal. -/
def astarInit (_env : GridEnvironment) (start goal : Pos) : AStarState :=
  let h := GridEnvironment.manhattan start goal
  let n0 : SippNode := ⟨start.1, start.2, 0, 0, h, h, none⟩
  { openList := [0], store := [n0], closedSet := [],
    nodeDict := [((start.1, start.2, 0), 0)], reopens := 0 }

/-- The two `continue` guards of the successor loop (astar.py lines
91–98): the vertex-constraint test at the successor's time `nt` and the
edge-constraint test made at the *current* node's time `ct`. -/
def survivesConstraintFilters (cons : ConstraintsSet) (agentId : Nat)
    (c : Pos) (ct : Nat) (n : Pos) (nt : Nat) : Bool :=
  !(cons.isConstrained agentId n nt) && !(cons.isEdgeConstrained agentId c n ct)

/-- Embeds the body of the successor loop of `SpaceTimeAStar.search`
for one neighbor `(nx, ny, nt)` of the current node `cur` (whose store
index is `curId`): constraint filters, closed-set check, then either the
open-list duplicate branch or a fresh push. -/
def processNeighbor (cons : ConstraintsSet) (agentId : Nat) (goal : Pos)
    (cur : SippNode) (curId : Nat) (s : AStarState) (nb : Nat × Nat × Nat) :
    AStarState :=
  let nx := nb.1
  let ny := nb.2.1
  let nt := nb.2.2
  if survivesConstraintFilters cons agentId (cur.x, cur.y) cur.t (nx, ny) nt then
    let g := cur.g + 1
    let h := GridEnvironment.manhattan (nx, ny) goal
    if (nx, ny, nt) ∈ s.closedSet then
      s
    else
      match alookup s.nodeDict (nx, ny, nt) with
      | some eid =>
        let e := s.store.getD eid dummyNode
        if g < e.g then
          -- the duplicate re-opening branch (astar.py lines 113–118)
          let e' : SippNode := { e with g := g, f := g + e.h, parent := some curId }
          let store' := s.store.set eid e'
          { s with store := store',
                   openList := heapify (nodeLt store') s.openList 0,
                   reopens := s.reopens + 1 }
        else
          s
      | none =>
        let newNode : SippNode := ⟨nx, ny, nt, g, h, g + h, some curId⟩
        let nid := s.store.length
        let store' := s.store ++ [newNode]
        { s with store := store',
                 openList := heappush (nodeLt store') s.openList nid,
                 nodeDict := s.nodeDict ++ [((nx, ny, nt), nid)] }
  else
    s

/-- Embeds `SpaceTimeAStar._reconstruct_path`: follow parent links and
reverse.  Parent indices strictly decrease, so `store.length` steps of
fuel always suffice. -/
def reconstructPath (store : List SippNode) : Nat → Nat → List Pos
  | 0, _ => []
  | fuel + 1, id =>
    let n := store.getD id dummyNode
    match n.parent with
    | none => [(n.x, n.y)]
    | some p => reconstructPath store fuel p ++ [(n.x, n.y)]

/-- Embeds the `while open_list:` loop of `SpaceTimeAStar.search`.
Returns `(none, s)` when the fuel runs out (the Python loop always
terminates, so callers supply enough fuel), `(some path, s)` for the two
genuine exits: the goal return and the empty-open-list fall-through
(which returns `[]`). -/
def astarLoop (env : GridEnvironment) (cons : ConstraintsSet) (agentId : Nat)
    (goal : Pos) (maxTime : Nat) : Nat → AStarState → Option (List Pos) × AStarState
  | 0, s => (none, s)
  | fuel + 1, s =>
    match heappop (nodeLt s.store) s.openList with
    | none => (some [], s)
    | some (curId, openRest) =>
      let cur := s.store.getD curId dummyNode
      if (cur.x, cur.y) = goal then
        (some (reconstructPath s.store s.store.length curId), s)
      else if maxTime ≤ cur.t then
        astarLoop env cons agentId goal maxTime fuel { s with openList := openRest }
      else
        let s1 := { s with openList := openRest,
                           closedSet := s.closedSet ++ [(cur.x, cur.y, cur.t)] }
        let nbs := env.getNeighbors (cur.x, cur.y, cur.t)
        let s2 := nbs.foldl (processNeighbor cons agentId goal cur curId) s1
        astarLoop env cons agentId goal maxTime fuel s2

/-- Embeds `SpaceTimeAStar.search(start, goal, max_time)` for the agent
`agentId` under `cons`; `none` means the fuel ran out. -/
def astarSearch (env : GridEnvironment) (cons : ConstraintsSet) (agentId : Nat)
    (start goal : Pos) (maxTime fuel : Nat) : Option (List Pos) :=
  (astarLoop env cons agentId goal maxTime fuel (astarInit env start goal)).1

/-! ## environment/agent_manager.py and algorithms/cbs.py data -/

/-- Embeds `Agent`: id, start, goal and the mutable `path` / `cost`
fields that `Agent.__init__` sets to `[]` and `0`. -/
structure Agent where
  id : Nat
  start : Pos
  goal : Pos
  path : Path
  cost : Nat
deriving Repr, DecidableEq

/-- Builds an agent the way `Agent.__init__` does. -/
def mkAgent (id : Nat) (start goal : Pos) : Agent := ⟨id, start, goal, [], 0⟩

/-- The two conflict kinds, Python's `"vertex"` / `"edge"` strings. -/
inductive CType where
  | vertex
  | edge
deriving Repr, DecidableEq

/-- Embeds the `Conflict` class of cbs.py. -/
structure Conflict where
  agent1 : Nat
  agent2 : Nat
  position : Pos
  time : Nat
  ctype : CType
deriving Repr, DecidableEq

/-- The joint plan: Python's `Dict[int, List[Tuple[int, int]]]` as an
insertion-ordered association list. -/
abbrev Solutions := List (Nat × Path)

/-- Embeds `CBSNode` (after its fields have been filled in). -/
structure CBSNode where
  constraints : ConstraintsSet
  solutions : Solutions
  cost : Nat
  conflicts : List Conflict
deriving Repr, DecidableEq

/-- `CBSNode.__lt__` compares `cost` only. -/
def cbsLt (a b : CBSNode) : Bool := decide (a.cost < b.cost)

/-- The relevant `Config` attributes read by CBS and A*. -/
structure Config where
  maxTimeSteps : Nat
  cbsMaxIterations : Nat
deriving Repr, DecidableEq

/-- Python dict assignment `d[k] = v`: replace in place if the key
exists, append otherwise. -/
def updateAssoc (l : List (Nat × β)) (k : Nat) (v : β) : List (Nat × β) :=
  match l with
  | [] => [(k, v)]
  | (k', v') :: rest =>
    if k' = k then (k, v) :: rest else (k', v') :: updateAssoc rest k v

/-! ## CBS._find_conflicts (cbs.py lines 161–201) -/

/-- Ordered pairs of list elements in Python's
`for i, a in enumerate(items): for b in items[i+1:]` order. -/
def allPairs : List α → List (α × α)
  | [] => []
  | x :: xs => xs.map (fun y => (x, y)) ++ allPairs xs

/-- Pads one dict entry to `maxLength` by repeating its last position
(cbs.py lines 171–173).  Python reads `extended_path[-1]`, which is in
range because solution paths are never empty; the `getLastD` default
renders that read total. -/
def padFun (maxLength : Nat) (p : Nat × Path) : Nat × Path :=
  (p.1, p.2 ++ List.replicate (maxLength - p.2.length) (p.2.getLastD (0, 0)))

/-- Pads every path to `maxLength`, as cbs.py lines 169–174 do. -/
def extendPaths (solutions : Solutions) (maxLength : Nat) : Solutions :=
  solutions.map (padFun maxLength)

/-- One entry of the `positions` dict at time `t` (cbs.py line 183). -/
def posFun (t : Nat) (p : Nat × Path) : Nat × Pos :=
  (p.1, p.2.getD t (0, 0))

/-- The `positions` dict built at time step `t` (cbs.py lines 178–183):
each agent's padded position at `t`, in dict order. -/
def positionsAt (extended : Solutions) (t : Nat) : List (Nat × Pos) :=
  extended.map (posFun t)

/-- The vertex conflicts recorded at time `t` (cbs.py lines 185–189):
all agent pairs whose positions coincide, in pair-enumeration order. -/
def vertexConflictsAt (positions : List (Nat × Pos)) (t : Nat) : List Conflict :=
  (allPairs positions).filterMap (fun q =>
    if q.1.2 = q.2.2 then
      some ⟨q.1.1, q.2.1, q.1.2, t, CType.vertex⟩
    else
      none)

/-- The edge (swap) conflicts recorded at time `t` (cbs.py lines
191–199): for `t > 0`, all agent pairs that exchanged positions between
`t-1` and `t`; the recorded position is the first agent's position at
`t` and the recorded time is `t`. -/
def edgeConflictsAt (extended : Solutions) (positions : List (Nat × Pos)) (t : Nat) :
    List Conflict :=
  if 0 < t then
    (allPairs positions).filterMap (fun q =>
      if ((alookup extended q.1.1).getD []).getD (t - 1) q.1.2 = q.2.2 ∧
          ((alookup extended q.2.1).getD []).getD (t - 1) q.2.2 = q.1.2 then
        some ⟨q.1.1, q.2.1, q.1.2, t, CType.edge⟩
      else
        none)
  else
    []

/-- The conflicts recorded during the iteration for one time step `t`:
vertex conflicts over all agent pairs first, then the swap test, in
that order (cbs.py lines 177–199). -/
def stepConflicts (extended : Solutions) (t : Nat) : List Conflict :=
  vertexConflictsAt (positionsAt extended t) t ++
    edgeConflictsAt extended (positionsAt extended t) t

/-- The `for t in range(max_length)` loop, accumulating `stepConflicts`
for `t, t+1, …` while `remaining` counts the steps left. -/
def scanConflicts (extended : Solutions) : Nat → Nat → List Conflict
  | 0, _ => []
  | remaining + 1, t => stepConflicts extended t ++ scanConflicts extended remaining (t + 1)

/-- Embeds `CBS._find_conflicts`.  On an empty solutions dict Python's
`max()` raises `ValueError`, modelled by the `Except.error`. -/
def findConflicts (solutions : Solutions) : Except String (List Conflict) :=
  if solutions = [] then
    .error "max() arg is an empty sequence"
  else
    .ok (scanConflicts
      (extendPaths solutions ((solutions.map (fun p => p.2.length)).foldr Nat.max 0))
      ((solutions.map (fun p => p.2.length)).foldr Nat.max 0) 0)

/-! ## CBS.search and helpers (cbs.py lines 55–159) -/

/-- Embeds `CBS._calculate_solution_cost`: the sum of `len(path) - 1`. -/
def calculateSolutionCost (solutions : Solutions) : Nat :=
  solutions.foldl (fun acc p => acc + (p.2.length - 1)) 0

/-- Embeds the constraint construction of the split step (cbs.py lines
84–97): for a vertex conflict a `VertexConstraint` is added, and for an
edge conflict the code comments "简化处理，假设是顶点冲突" and adds a
`VertexConstraint` at the conflict's position and time as well. -/
def buildChildConstraints (parent : ConstraintsSet) (c : Conflict) (agentId : Nat) :
    ConstraintsSet :=
  match c.ctype with
  | .vertex => parent.addVertexConstraint ⟨agentId, c.position, c.time⟩
  | .edge => parent.addVertexConstraint ⟨agentId, c.position, c.time⟩

/-- Embeds `CBS._find_initial_solutions`: plan each agent in list order
under the given constraints; agents whose search returns an empty path
are silently skipped; found paths are also written into the shared
`Agent` objects (`agent.path`, `agent.cost`).  The index `i` tracks the
agent's position in the list, which is where the mutation lands. -/
def findInitialSolutionsAux (env : GridEnvironment) (cons : ConstraintsSet)
    (config : Config) (fuel : Nat) :
    List Agent → Nat → Solutions → List Agent → Except String (Solutions × List Agent)
  | [], _, solutions, agents => .ok (solutions, agents)
  | agent :: rest, i, solutions, agents =>
    match astarSearch env cons agent.id agent.start agent.goal config.maxTimeSteps fuel with
    | none => .error "astar fuel exhausted"
    | some path =>
      if path = [] then
        findInitialSolutionsAux env cons config fuel rest (i + 1) solutions agents
      else
        let solutions' := updateAssoc solutions agent.id path
        let agents' := agents.set i { agent with path := path, cost := path.length - 1 }
        findInitialSolutionsAux env cons config fuel rest (i + 1) solutions' agents'

/-- Embeds `CBS._find_initial_solutions` over the full agent list. -/
def findInitialSolutions (env : GridEnvironment) (agents : List Agent)
    (cons : ConstraintsSet) (config : Config) (fuel : Nat) :
    Except String (Solutions × List Agent) :=
  findInitialSolutionsAux env cons config fuel agents 0 [] agents

/-- The three ways `CBS.search` can hand back a value: `solved` for the
two conflict-free returns (cbs.py lines 77 and 116), `budget` for the
best-node return after the iteration cap (line 124), `exhausted` for the
final `return {}` (line 126). -/
inductive CBSResult where
  | solved : Solutions → CBSResult
  | budget : Solutions → CBSResult
  | exhausted : CBSResult
deriving Repr, DecidableEq

/-- Embeds the code after the while loop (cbs.py lines 121–126). -/
def cbsPostLoop (openList : List CBSNode) : CBSResult :=
  match heappop cbsLt openList with
  | none => .exhausted
  | some (best, _) => .budget best.solutions

/-- Embeds the expansion of one child (the body of
`for agent_id in [conflict.agent1, conflict.agent2]`, cbs.py lines
83–119), including `_replan_agent`'s mutation of the shared agent, and
the early `return` when the child is conflict-free.  `Sum.inl` is that
early return; `Sum.inr` carries the grown open list and agents. -/
def expandChild (env : GridEnvironment) (config : Config) (fuel : Nat)
    (conflict : Conflict) (parent : CBSNode) (agentId : Nat)
    (openList : List CBSNode) (agents : List Agent) :
    Except String ((CBSResult × List Agent) ⊕ (List CBSNode × List Agent)) :=
  let newConstraints := buildChildConstraints parent.constraints conflict agentId
  -- new_node.solutions = copy.deepcopy(current_node.solutions)
  let solutions0 := parent.solutions
  -- _replan_agent: agent = self.agents[agent_id] (list indexing by id)
  match agents.get? agentId with
  | none => .error "list index out of range"
  | some agent =>
    match astarSearch env newConstraints agentId agent.start agent.goal
        config.maxTimeSteps fuel with
    | none => .error "astar fuel exhausted"
    | some newPath =>
      let solutions1 :=
        if newPath = [] then solutions0 else updateAssoc solutions0 agentId newPath
      let agents1 :=
        if newPath = [] then agents
        else agents.set agentId { agent with path := newPath, cost := newPath.length - 1 }
      let newCost := calculateSolutionCost solutions1
      match findConflicts solutions1 with
      | .error e => .error e
      | .ok newConflicts =>
        if newConflicts = [] then
          .ok (.inl (.solved solutions1, agents1))
        else
          let node : CBSNode := ⟨newConstraints, solutions1, newCost, newConflicts⟩
          .ok (.inr (heappush cbsLt openList node, agents1))

/-- Runs `expandChild` over the two conflicting agents in order. -/
def expandChildren (env : GridEnvironment) (config : Config) (fuel : Nat)
    (conflict : Conflict) (parent : CBSNode) :
    List Nat → List CBSNode → List Agent →
    Except String ((CBSResult × List Agent) ⊕ (List CBSNode × List Agent))
  | [], openList, agents => .ok (.inr (openList, agents))
  | agentId :: rest, openList, agents =>
    match expandChild env config fuel conflict parent agentId openList agents with
    | .error e => .error e
    | .ok (.inl early) => .ok (.inl early)
    | .ok (.inr (openList', agents')) =>
      expandChildren env config fuel conflict parent rest openList' agents'

/-- Embeds the main `while open_list and iteration < CBS_MAX_ITERATIONS`
loop of `CBS.search`; `remaining` is the number of iterations the cap
still allows. -/
def cbsLoop (env : GridEnvironment) (config : Config) (fuel : Nat) :
    Nat → List CBSNode → List Agent → Except String (CBSResult × List Agent)
  | 0, openList, agents => .ok (cbsPostLoop openList, agents)
  | remaining + 1, openList, agents =>
    match heappop cbsLt openList with
    | none => .ok (cbsPostLoop [], agents)
    | some (current, openRest) =>
      match current.conflicts with
      | [] => .ok (.solved current.solutions, agents)
      | conflict :: _ =>
        match expandChildren env config fuel conflict current
            [conflict.agent1, conflict.agent2] openRest agents with
        | .error e => .error e
        | .ok (.inl early) => .ok early
        | .ok (.inr (openList', agents')) =>
          cbsLoop env config fuel remaining openList' agents'

/-- Embeds `CBS.search`: build the root node, push it, run the loop.
The returned agent list reflects the mutations `CBS` performs on the
shared `Agent` objects. -/
def cbsSearch (env : GridEnvironment) (agents : List Agent) (config : Config)
    (fuel : Nat) : Except String (CBSResult × List Agent) :=
  match findInitialSolutions env agents ConstraintsSet.empty config fuel with
  | .error e => .error e
  | .ok (rootSolutions, agents1) =>
    let rootCost := calculateSolutionCost rootSolutions
    match findConflicts rootSolutions with
    | .error e => .error e
    | .ok rootConflicts =>
      let root : CBSNode := ⟨ConstraintsSet.empty, rootSolutions, rootCost, rootConflicts⟩
      let openList := heappush cbsLt [] root
      cbsLoop env config fuel config.cbsMaxIterations openList agents1

/-! ## utils/metrics.py and environment/agent_manager.py metrics -/

/-- Embeds `Metrics.calculate_makespan`: `0` for an empty dict, else
`max(len(path) - 1)`. -/
def calculateMakespan (paths : Solutions) : Nat :=
  if paths = [] then 0
  else (paths.map (fun p => p.2.length - 1)).foldr Nat.max 0

/-- Embeds `AgentManager.get_makespan`: `0` for no agents, else
`max(len(agent.path) for agent in agents if agent.path)`; `none` models
the `ValueError` Python raises when every agent's path is empty. -/
def getMakespan (agents : List Agent) : Option Nat :=
  match agents with
  | [] => some 0
  | _ =>
    let lens := (agents.filter (fun a => !a.path.isEmpty)).map (fun a => a.path.length)
    match lens with
    | [] => none
    | _ => some (lens.foldr Nat.max 0)

/-- Decidable equality for `Except`, so that concrete runs of the
embedded functions can be checked by `decide`. -/
instance [DecidableEq ε] [DecidableEq α] : DecidableEq (Except ε α) := fun a b =>
  match a, b with
  | .ok x, .ok y =>
    if h : x = y then .isTrue (by rw [h]) else .isFalse (by simp [h])
  | .error x, .error y =>
    if h : x = y then .isTrue (by rw [h]) else .isFalse (by simp [h])
  | .ok _, .error _ => .isFalse (by simp)
  | .error _, .ok _ => .isFalse (by simp)

/-! ## Definitions taken from the specification's words

These definitions follow the spec / claim text, to be compared with the
code-derived definitions above. -/

/-- Position of a plan at time `t` after padding to any sufficient
length: the plan's cell at `t`, or its final cell once the plan is over
(spec §4.4 step 2). -/
def padPos (p : Path) (t : Nat) : Pos :=
  if t < p.length then p.getD t (0, 0) else p.getLastD (0, 0)

/-- Spec §8 property 1, vertex part: distinct agents never share a cell
at any time of the padded joint plan (times `0 … makespan`). -/
def NoVertexConflicts (sols : Solutions) : Prop :=
  ∀ i j, i < sols.length → j < sols.length → i ≠ j →
    ∀ t, t ≤ calculateMakespan sols →
      padPos (sols.getD i (0, [])).2 t ≠ padPos (sols.getD j (0, [])).2 t

/-- Spec §8 property 1, edge part: distinct agents never swap cells
between consecutive times of the padded joint plan (spec §4.4 records an
edge conflict only when the first agent actually moves). -/
def NoEdgeConflicts (sols : Solutions) : Prop :=
  ∀ i j, i < sols.length → j < sols.length → i ≠ j →
    ∀ t, 1 ≤ t → t ≤ calculateMakespan sols →
      ¬(padPos (sols.getD i (0, [])).2 (t - 1) = padPos (sols.getD j (0, [])).2 t ∧
        padPos (sols.getD j (0, [])).2 (t - 1) = padPos (sols.getD i (0, [])).2 t ∧
        padPos (sols.getD i (0, [])).2 t ≠ padPos (sols.getD i (0, [])).2 (t - 1))

/-- Spec §4.3: `T_forbid(agent)` is the largest `t` such that a vertex
constraint `(agent, goal, t)` exists, and `0` if there is none. -/
def tForbid (cons : ConstraintsSet) (agentId : Nat) (goal : Pos) : Nat :=
  (cons.vertexConstraints.filterMap (fun c =>
    if c.agent = agentId ∧ c.pos = goal then some c.time else none)).foldr Nat.max 0

/-- The code's expansion permission for a transition from `(cell, t)` to
`(ncell, t+1)` with `ncell` a grid neighbor: the horizon guard sits at
pop time (`if current_node.t >= max_time: continue`, astar.py line 80),
so a node is expanded exactly when `t < max_time`, and each generated
neighbor carries arrival time `t+1` and must pass
`survivesConstraintFilters` — the vertex test at `t+1` and the edge test
at the departure time `t` (astar.py lines 91–98). -/
def expandPermitted (cons : ConstraintsSet) (agentId : Nat) (cell : Pos) (t : Nat)
    (ncell : Pos) (maxTime : Nat) : Bool :=
  decide (t < maxTime) && survivesConstraintFilters cons agentId cell t ncell (t + 1)

/-- Claim C5's permission predicate, from the claim's words: `t+1 ≤
H_max`, no vertex constraint `(agent, ncell, t+1)`, and, when `ncell ≠
cell`, no edge constraint `(agent, cell, ncell, t+1)` (edge test at the
arrival time). -/
def claimExpandPermitted (cons : ConstraintsSet) (agentId : Nat) (cell : Pos)
    (t : Nat) (ncell : Pos) (maxTime : Nat) : Bool :=
  decide (t + 1 ≤ maxTime) && !(cons.isConstrained agentId ncell (t + 1)) &&
    (if ncell = cell then true else !(cons.isEdgeConstrained agentId cell ncell (t + 1)))

/-- The amended permission predicate: as the claim, except that the edge
test is made at the departure time `t` and is applied to every move,
wait moves included. -/
def amendedExpandPermitted (cons : ConstraintsSet) (agentId : Nat) (cell : Pos)
    (t : Nat) (ncell : Pos) (maxTime : Nat) : Bool :=
  decide (t + 1 ≤ maxTime) && !(cons.isConstrained agentId ncell (t + 1)) &&
    !(cons.isEdgeConstrained agentId cell ncell t)

/-- A conflict as described by claim C4 / spec §4.4: for a vertex
conflict `c1 = c2` is the shared cell; for an edge conflict `c1 =
pos_a(t-1)`, `c2 = pos_a(t)` and the recorded time is `t-1`. -/
structure SpecConflict where
  a : Nat
  b : Nat
  c1 : Pos
  c2 : Pos
  time : Nat
  ctype : CType
deriving Repr, DecidableEq

/-- The conflicts claim C4 says are recorded at padded time `t`: vertex
conflicts at `t`, and, for `t ≥ 1`, edge conflicts recorded with time
`t-1` and only when agent `a` actually moves. -/
def claimConflictsAt (sols : Solutions) (t : Nat) : List SpecConflict :=
  let vcs := (allPairs sols).filterMap (fun q =>
    if padPos q.1.2 t = padPos q.2.2 t then
      some ⟨q.1.1, q.2.1, padPos q.1.2 t, padPos q.1.2 t, t, CType.vertex⟩
    else
      none)
  let ecs :=
    if 1 ≤ t then
      (allPairs sols).filterMap (fun q =>
        if padPos q.1.2 (t - 1) = padPos q.2.2 t ∧ padPos q.2.2 (t - 1) = padPos q.1.2 t ∧
            padPos q.1.2 t ≠ padPos q.1.2 (t - 1) then
          some ⟨q.1.1, q.2.1, padPos q.1.2 (t - 1), padPos q.1.2 t, t - 1, CType.edge⟩
        else
          none)
    else
      []
  vcs ++ ecs

/-- All conflicts of a padded joint plan under claim C4's recording
rule, scanning `t = 0 … makespan`. -/
def claimConflicts (sols : Solutions) : List SpecConflict :=
  (List.range (calculateMakespan sols + 1)).flatMap (claimConflictsAt sols)

/-- Lexicographic order on the `(t, type_order, a, b)` keys of claim
C4, with `type_order(vertex) = 0 < 1 = type_order(edge)`. -/
def tupLe (k l : Nat × Nat × Nat × Nat) : Bool :=
  decide (k.1 < l.1 ∨ (k.1 = l.1 ∧
    (k.2.1 < l.2.1 ∨ (k.2.1 = l.2.1 ∧
      (k.2.2.1 < l.2.2.1 ∨ (k.2.2.1 = l.2.2.1 ∧ k.2.2.2 ≤ l.2.2.2))))))

/-- The `(t, type_order, a, b)` key of a conflict as recorded by the
code. -/
def conflictKey (c : Conflict) : Nat × Nat × Nat × Nat :=
  (c.time, (match c.ctype with | .vertex => 0 | .edge => 1), c.agent1, c.agent2)

/-! ## Claim C2 — edge-conflict splitting (code bug)

Claim C2 says each child of an edge-conflict split adds exactly one
`EdgeConstraint` forbidding its own agent's directed move, and no vertex
constraint.  The code (cbs.py lines 92–97) instead adds a
`VertexConstraint` at the conflict's position and time, with the comment
"简化处理，假设是顶点冲突"; spec §9 flags this as a source bug. -/

/-- Claim C2, evaluated: splitting the empty constraint set on the edge
conflict `Conflict(0, 1, (0,1), 1, edge)` for agent `0` adds no edge
constraint at all and adds the vertex constraint `(0, (0,1), 1)`,
contradicting the claim. -/
theorem edge_split_adds_vertex_constraint :
    (buildChildConstraints ConstraintsSet.empty ⟨0, 1, (0, 1), 1, CType.edge⟩ 0).edgeConstraints = [] ∧
    (buildChildConstraints ConstraintsSet.empty ⟨0, 1, (0, 1), 1, CType.edge⟩ 0).vertexConstraints =
      [⟨0, (0, 1), 1⟩] := by
  decide

/-! ## Claim C3 — goal test ignores future goal constraints (code bug)

The goal test (astar.py line 76) is `(x, y) == goal` alone; there is no
`t ≥ T_forbid` condition.  Spec §9 flags this ("low-level goal test does
not account for future constraints at the goal cell"). -/

/-- Claim C3, evaluated: on a free 1×2 grid, agent 0 from `(0,0)` to
`(0,1)` under the single vertex constraint `(0, (0,1), 2)` is given the
plan `[(0,0), (0,1)]`, which reaches the goal at time `1` even though
`T_forbid = 2`; the claim requires arrival no earlier than time `2`. -/
theorem goal_test_ignores_tforbid :
    astarSearch (mkGridEnvironment [[0, 0]]) ⟨[⟨0, (0, 1), 2⟩], []⟩ 0 (0, 0) (0, 1) 5 20 =
      some [(0, 0), (0, 1)] ∧
    ([(0, 0), (0, 1)] : Path).length - 1 < tForbid ⟨[⟨0, (0, 1), 2⟩], []⟩ 0 (0, 1) := by
  decide

/-! ## Claim C5 — transition permission (corrected)

The code tests the edge constraint at the departure time `t`, not the
arrival time `t+1`, and it applies the edge test to wait moves too. -/

/-- Counterexample to claim C5: with only the edge constraint
`(0, (0,0) → (0,1), 1)` the code permits the move `(0,0) → (0,1)` from
`t = 0` (its edge test probes time `0`) while the claim forbids it; and
with only the edge constraint `(0, (0,0) → (0,0), 0)` the code forbids
the wait at `(0,0)` from `t = 0` while the claim permits it. -/
theorem expand_permitted_cex :
    (expandPermitted ⟨[], [⟨0, (0, 0), (0, 1), 1⟩]⟩ 0 (0, 0) 0 (0, 1) 5 = true ∧
     claimExpandPermitted ⟨[], [⟨0, (0, 0), (0, 1), 1⟩]⟩ 0 (0, 0) 0 (0, 1) 5 = false) ∧
    (expandPermitted ⟨[], [⟨0, (0, 0), (0, 0), 0⟩]⟩ 0 (0, 0) 0 (0, 0) 5 = false ∧
     claimExpandPermitted ⟨[], [⟨0, (0, 0), (0, 0), 0⟩]⟩ 0 (0, 0) 0 (0, 0) 5 = true) := by
  decide

/-- Claim C5 as amended: a transition from `(cell, t)` to a grid
neighbor `ncell` at `t+1` is expanded iff `t+1 ≤ H_max`, no vertex
constraint `(agent, ncell, t+1)` exists, and no edge constraint
`(agent, cell, ncell, t)` exists — the edge-constraint membership test
is made at the departure time `t` and applies to wait moves as well. -/
theorem expand_permitted_characterization (cons : ConstraintsSet) (agentId : Nat)
    (cell : Pos) (t : Nat) (ncell : Pos) (maxTime : Nat) :
    expandPermitted cons agentId cell t ncell maxTime =
      amendedExpandPermitted cons agentId cell t ncell maxTime := by
  simp [expandPermitted, amendedExpandPermitted, survivesConstraintFilters,
    Nat.lt_iff_add_one_le, Bool.and_assoc]

/-! ## Claim C7 — input mutation (code bug)

`CBS._find_initial_solutions` and `CBS._replan_agent` write the found
paths into the shared `Agent` objects (`agent.path = path`,
`agent.cost = len(path) - 1`); spec §9 flags this. -/

/-- Claim C7, evaluated: solving the trivial 1×1 instance rewrites the
input agent's `path` field from `[]` to `[(0,0)]`, so `CBS.search` does
mutate its inputs. -/
theorem cbs_search_mutates_agents :
    cbsSearch (mkGridEnvironment [[0]]) [mkAgent 0 (0, 0) (0, 0)] ⟨5, 5⟩ 20 =
      .ok (.solved [(0, [(0, 0)])], [⟨0, (0, 0), (0, 0), [(0, 0)], 0⟩]) ∧
    (⟨0, (0, 0), (0, 0), [(0, 0)], 0⟩ : Agent).path ≠ (mkAgent 0 (0, 0) (0, 0)).path := by
  decide

/-! ## Claim C8 — makespan disagreement (code bug)

`Metrics.calculate_makespan` returns `max(len(path) - 1)` while
`AgentManager.get_makespan` returns `max(len(agent.path))`; spec §9
flags the disagreement and fixes `makespan = max(len - 1)`. -/

/-- Claim C8, evaluated: for the single plan `[(0,0), (0,1)]`,
`Metrics.calculate_makespan` returns `1` (the spec's `max(len - 1)`)
but `AgentManager.get_makespan` returns `2`, so the two computations do
not agree. -/
theorem makespan_computations_disagree :
    calculateMakespan [(0, [(0, 0), (0, 1)])] = 1 ∧
    getMakespan [⟨0, (0, 0), (0, 1), [(0, 0), (0, 1)], 1⟩] = some 2 ∧
    getMakespan [⟨0, (0, 0), (0, 1), [(0, 0), (0, 1)], 1⟩] ≠
      some (calculateMakespan [(0, [(0, 0), (0, 1)])]) := by
  decide

/-! ## Claim C10 — empty root solutions raise (confirmed)

With an empty root solutions dict, `CBS.search` reaches
`max(len(path) for path in solutions.values())` inside
`_find_conflicts` and Python raises `ValueError`; no `NoSolution`
result is produced. -/

/-- Claim C10: whenever `_find_initial_solutions` produces an empty
solutions mapping (every agent infeasible at the root), `CBS.search`
propagates the `ValueError` of `max()` over an empty sequence instead
of returning any result. -/
theorem cbs_empty_root_raises (env : GridEnvironment) (agents : List Agent)
    (config : Config) (fuel : Nat) (ags : List Agent)
    (h : findInitialSolutions env agents ConstraintsSet.empty config fuel = .ok ([], ags)) :
    cbsSearch env agents config fuel = .error "max() arg is an empty sequence" := by
  unfold cbsSearch
  rw [h]
  rfl

/-- Witness for `cbs_empty_root_raises`: on a 1×3 grid whose middle
cell is blocked, a single agent from `(0,2)` to `(0,0)` is infeasible,
the root solutions mapping is empty, and the search call errors. -/
theorem cbs_empty_root_raises_witness :
    cbsSearch (mkGridEnvironment [[0, 1, 0]]) [mkAgent 0 (0, 2) (0, 0)] ⟨2, 5⟩ 20 =
      .error "max() arg is an empty sequence" :=
  cbs_empty_root_raises (mkGridEnvironment [[0, 1, 0]]) [mkAgent 0 (0, 2) (0, 0)]
    ⟨2, 5⟩ 20 [⟨0, (0, 2), (0, 0), [], 0⟩] (by decide)

/-! ## Claim C6 — infeasible agent at root (corrected)

`_find_initial_solutions` adds a path only `if path:`, so an agent whose
root search fails is silently dropped from the solutions mapping; the
search then proceeds over the remaining agents and returns a joint plan
that omits the infeasible agent.  No `NoSolution` report exists. -/

/-- Keys of `updateAssoc l k v` come from `l` or are `k`. -/
theorem mem_keys_updateAssoc {l : List (Nat × β)} {k k' : Nat} {v : β}
    (h : k ∈ (updateAssoc l k' v).map Prod.fst) : k ∈ l.map Prod.fst ∨ k = k' := by
  induction l with
  | nil =>
    right
    simpa [updateAssoc] using h
  | cons p rest ih =>
    obtain ⟨p1, p2⟩ := p
    by_cases hp : p1 = k'
    · rw [updateAssoc, if_pos hp, List.map_cons] at h
      rcases List.mem_cons.mp h with h | h
      · right; exact h
      · left; rw [List.map_cons]; exact List.mem_cons_of_mem _ h
    · rw [updateAssoc, if_neg hp, List.map_cons] at h
      rcases List.mem_cons.mp h with h | h
      · left; rw [List.map_cons]; exact List.mem_cons.mpr (Or.inl h)
      · rcases ih h with h' | h'
        · left; rw [List.map_cons]; exact List.mem_cons_of_mem _ h'
        · right; exact h'

/-- Worker for the amended claim C6: along `_find_initial_solutions`,
an id whose remaining agents all fail their root search never enters
the solutions accumulator. -/
theorem findInitialSolutionsAux_omits (env : GridEnvironment) (cons : ConstraintsSet)
    (config : Config) (fuel : Nat) (a : Nat) :
    ∀ (rest : List Agent) (i : Nat) (solsAcc : Solutions) (agentsAcc : List Agent)
      (sols : Solutions) (ags : List Agent),
      (∀ ag ∈ rest, ag.id = a →
        astarSearch env cons ag.id ag.start ag.goal config.maxTimeSteps fuel = some []) →
      a ∉ solsAcc.map Prod.fst →
      findInitialSolutionsAux env cons config fuel rest i solsAcc agentsAcc = .ok (sols, ags) →
      a ∉ sols.map Prod.fst := by
  intro rest
  induction rest with
  | nil =>
    intro i solsAcc agentsAcc sols ags h1 h0 h
    simp [findInitialSolutionsAux] at h
    rw [← h.1]
    exact h0
  | cons ag rest ih =>
    intro i solsAcc agentsAcc sols ags h1 h0 h
    rw [findInitialSolutionsAux] at h
    split at h
    · exact absurd h (by simp)
    · next path heq =>
      split at h
      · exact ih _ _ _ _ _ (fun x hx hxa => h1 x (List.mem_cons_of_mem _ hx) hxa) h0 h
      · next hp =>
        have hid : ag.id ≠ a := by
          intro he
          have h2 := h1 ag (List.mem_cons_self _ _) he
          rw [heq] at h2
          injection h2 with h3
          exact hp h3
        refine ih _ _ _ _ _ (fun x hx hxa => h1 x (List.mem_cons_of_mem _ hx) hxa) ?_ h
        intro hmem
        rcases mem_keys_updateAssoc hmem with h' | h'
        · exact h0 h'
        · exact hid h'.symm

/-- Claim C6 as amended: if every input agent carrying id `a` fails its
root low-level search under the empty constraint set, then `a` is
omitted from the root solutions mapping — CBS proceeds with the other
agents instead of reporting any `NoSolution`. -/
theorem root_infeasible_agent_omitted (env : GridEnvironment) (agents : List Agent)
    (config : Config) (fuel : Nat) (a : Nat) (sols : Solutions) (ags : List Agent)
    (h1 : ∀ ag ∈ agents, ag.id = a →
      astarSearch env ConstraintsSet.empty ag.id ag.start ag.goal config.maxTimeSteps fuel =
        some [])
    (h : findInitialSolutions env agents ConstraintsSet.empty config fuel = .ok (sols, ags)) :
    a ∉ sols.map Prod.fst :=
  findInitialSolutionsAux_omits env ConstraintsSet.empty config fuel a agents 0 [] agents
    sols ags h1 (by simp) h

/-- Witness for `root_infeasible_agent_omitted`: on the blocked 1×3
grid, agent 1 (start `(0,2)`, goal `(0,0)`) is infeasible at the root
and its id is omitted from the root solutions. -/
theorem root_infeasible_agent_omitted_witness :
    (1 : Nat) ∉ ([(0, [(0, 0)])] : Solutions).map Prod.fst :=
  root_infeasible_agent_omitted (mkGridEnvironment [[0, 1, 0]])
    [mkAgent 0 (0, 0) (0, 0), mkAgent 1 (0, 2) (0, 0)] ⟨2, 5⟩ 20 1 [(0, [(0, 0)])]
    [⟨0, (0, 0), (0, 0), [(0, 0)], 0⟩, ⟨1, (0, 2), (0, 0), [], 0⟩]
    (by decide) (by decide)

/-- Counterexample to claim C6 as stated: on the blocked 1×3 grid with
agent 0 trivially feasible and agent 1 infeasible at the root,
`CBS.search` returns a conflict-free joint plan containing only agent 0
— it does not report `NoSolution`, and the returned plan omits the
infeasible agent. -/
theorem cbs_no_nosolution_for_partial_root :
    cbsSearch (mkGridEnvironment [[0, 1, 0]])
        [mkAgent 0 (0, 0) (0, 0), mkAgent 1 (0, 2) (0, 0)] ⟨2, 5⟩ 20 =
      .ok (.solved [(0, [(0, 0)])],
        [⟨0, (0, 0), (0, 0), [(0, 0)], 0⟩, ⟨1, (0, 2), (0, 0), [], 0⟩]) ∧
    (1 : Nat) ∉ ([(0, [(0, 0)])] : Solutions).map Prod.fst := by
  decide

/-! ## Claim C9 — g = t invariant in the low-level search (confirmed)

Every A* node ever created has `g = t` (the start node has `g = 0` at
`t = 0` and each transition adds one to both), so the open-list
duplicate found in `node_dict` always has the same `g` as the freshly
generated node and the strictly-lower-`g` re-opening branch is dead. -/

/-- Every neighbor produced by `get_neighbors` carries time `t + 1`. -/
theorem getNeighbors_time {env : GridEnvironment} {x y t : Nat}
    {nb : Nat × Nat × Nat} (h : nb ∈ env.getNeighbors (x, y, t)) :
    nb.2.2 = t + 1 := by
  rw [GridEnvironment.getNeighbors] at h
  rcases List.mem_filterMap.mp h with ⟨m, _, hm⟩
  by_cases hc : 0 ≤ (x : Int) + m.1 ∧ (x : Int) + m.1 < (env.height : Int) ∧
      0 ≤ (y : Int) + m.2 ∧ (y : Int) + m.2 < (env.width : Int) ∧
      env.cellValue ((x : Int) + m.1).toNat ((y : Int) + m.2).toNat = 0
  · rw [if_pos hc] at hm
    injection hm with hm'
    rw [← hm']
  · rw [if_neg hc] at hm
    exact absurd hm (by simp)

/-- A successful association-list lookup exhibits a member. -/
theorem alookup_mem [DecidableEq κ] {l : List (κ × β)} {k : κ} {v : β}
    (h : alookup l k = some v) : (k, v) ∈ l := by
  induction l with
  | nil => exact absurd h (by simp [alookup])
  | cons p rest ih =>
    obtain ⟨k', v'⟩ := p
    by_cases hk : k' = k
    · rw [alookup, if_pos hk] at h
      injection h with h'
      rw [hk, h']
      exact List.mem_cons_self _ _
    · rw [alookup, if_neg hk] at h
      exact List.mem_cons_of_mem _ (ih h)

/-- The invariant of claim C9: every node in the store has `g = t`, and
every `node_dict` entry points into the store at a node whose `g` (and
`t`) equal the time of the entry's key. -/
def AStarInv (s : AStarState) : Prop :=
  (∀ n ∈ s.store, n.g = n.t) ∧
  (∀ pr ∈ s.nodeDict, pr.2 < s.store.length ∧ (s.store.getD pr.2 dummyNode).g = pr.1.2.2)

/-- Under the invariant, any store read (in range or not) yields a node
with `g = t`; `dummyNode` satisfies it too. -/
theorem AStarInv.getD_g_eq_t {s : AStarState} (h : AStarInv s) (id : Nat) :
    (s.store.getD id dummyNode).g = (s.store.getD id dummyNode).t := by
  by_cases hid : id < s.store.length
  · rw [List.getD_eq_getElem _ _ hid]
    exact h.1 _ (List.getElem_mem hid)
  · rw [List.getD_eq_default _ _ (Nat.le_of_not_lt hid)]
    rfl

/-- One successor step preserves the invariant and never touches the
re-opening branch (its ghost counter). -/
theorem processNeighbor_inv (cons : ConstraintsSet) (agentId : Nat) (goal : Pos)
    (cur : SippNode) (curId : Nat) (s : AStarState) (nb : Nat × Nat × Nat)
    (hInv : AStarInv s) (hcur : cur.g = cur.t) (hnb : nb.2.2 = cur.t + 1) :
    AStarInv (processNeighbor cons agentId goal cur curId s nb) ∧
      (processNeighbor cons agentId goal cur curId s nb).reopens = s.reopens := by
  rw [processNeighbor]
  by_cases hf : survivesConstraintFilters cons agentId (cur.x, cur.y) cur.t
      (nb.1, nb.2.1) nb.2.2 = true
  swap
  · rw [if_neg hf]; exact ⟨hInv, rfl⟩
  rw [if_pos hf]
  by_cases hcl : (nb.1, nb.2.1, nb.2.2) ∈ s.closedSet
  · rw [if_pos hcl]; exact ⟨hInv, rfl⟩
  rw [if_neg hcl]
  cases hlk : alookup s.nodeDict (nb.1, nb.2.1, nb.2.2) with
  | some eid =>
    dsimp only
    have hdict := hInv.2 _ (alookup_mem hlk)
    have hd1 : eid < s.store.length := hdict.1
    have hd2 : (s.store.getD eid dummyNode).g = nb.2.2 := hdict.2
    have hng : ¬ (cur.g + 1 < (s.store.getD eid dummyNode).g) := by omega
    rw [if_neg hng]
    exact ⟨hInv, rfl⟩
  | none =>
    dsimp only
    refine ⟨⟨?_, ?_⟩, rfl⟩
    · intro n hn
      rcases List.mem_append.mp hn with hn | hn
      · exact hInv.1 n hn
      · rw [List.mem_singleton.mp hn]
        dsimp only
        omega
    · intro pr hpr
      rcases List.mem_append.mp hpr with hpr | hpr
      · have h2 := hInv.2 pr hpr
        constructor
        · have hlen : pr.2 < s.store.length := h2.1
          simp only [List.length_append, List.length_cons, List.length_nil]
          omega
        · rw [List.getD_append _ _ _ _ h2.1]
          exact h2.2
      · rw [List.mem_singleton.mp hpr]
        refine ⟨by simp, ?_⟩
        dsimp only
        rw [List.getD_append_right _ _ _ _ (Nat.le_refl _), Nat.sub_self]
        dsimp only [List.getD_cons_zero]
        omega

/-- Folding the successor step over any neighbor list (all at time
`cur.t + 1`) preserves the invariant and the ghost counter. -/
theorem foldl_processNeighbor_inv (cons : ConstraintsSet) (agentId : Nat)
    (goal : Pos) (cur : SippNode) (curId : Nat) :
    ∀ (nbs : List (Nat × Nat × Nat)) (s : AStarState), AStarInv s → cur.g = cur.t →
      (∀ nb ∈ nbs, nb.2.2 = cur.t + 1) →
      AStarInv (nbs.foldl (processNeighbor cons agentId goal cur curId) s) ∧
        (nbs.foldl (processNeighbor cons agentId goal cur curId) s).reopens = s.reopens := by
  intro nbs
  induction nbs with
  | nil => intro s h _ _; exact ⟨h, rfl⟩
  | cons nb rest ih =>
    intro s h hcur hnb
    have h1 := processNeighbor_inv cons agentId goal cur curId s nb
      h hcur (hnb nb (List.mem_cons_self _ _))
    have h2 := ih _ h1.1 hcur (fun x hx => hnb x (List.mem_cons_of_mem _ hx))
    rw [List.foldl_cons]
    exact ⟨h2.1, h2.2.trans h1.2⟩

/-- The A* loop preserves the invariant and never increments the
re-opening counter. -/
theorem astarLoop_inv {env : GridEnvironment} {cons : ConstraintsSet} {agentId : Nat}
    {goal : Pos} {maxTime : Nat} :
    ∀ (fuel : Nat) (s : AStarState) (res : Option (List Pos)) (s' : AStarState),
      astarLoop env cons agentId goal maxTime fuel s = (res, s') → AStarInv s →
      AStarInv s' ∧ s'.reopens = s.reopens := by
  intro fuel
  induction fuel with
  | zero =>
    intro s res s' hEq h
    rw [astarLoop] at hEq
    injection hEq with h1 h2
    rw [← h2]
    exact ⟨h, rfl⟩
  | succ fuel ih =>
    intro s res s' hEq h
    rw [astarLoop] at hEq
    cases hpop : heappop (nodeLt s.store) s.openList with
    | none =>
      rw [hpop] at hEq
      injection hEq with h1 h2
      rw [← h2]
      exact ⟨h, rfl⟩
    | some pr =>
      obtain ⟨curId, openRest⟩ := pr
      rw [hpop] at hEq
      dsimp only at hEq
      by_cases hg : ((s.store.getD curId dummyNode).x, (s.store.getD curId dummyNode).y) = goal
      · rw [if_pos hg] at hEq
        injection hEq with h1 h2
        rw [← h2]
        exact ⟨h, rfl⟩
      · rw [if_neg hg] at hEq
        by_cases ht : maxTime ≤ (s.store.getD curId dummyNode).t
        · rw [if_pos ht] at hEq
          exact ih { s with openList := openRest } _ _ hEq ⟨h.1, h.2⟩
        · rw [if_neg ht] at hEq
          have hfold := foldl_processNeighbor_inv cons agentId goal
            (s.store.getD curId dummyNode) curId
            (env.getNeighbors ((s.store.getD curId dummyNode).x,
              (s.store.getD curId dummyNode).y, (s.store.getD curId dummyNode).t))
            { s with openList := openRest,
                     closedSet := s.closedSet ++ [((s.store.getD curId dummyNode).x,
                       (s.store.getD curId dummyNode).y, (s.store.getD curId dummyNode).t)] }
            ⟨h.1, h.2⟩ (h.getD_g_eq_t curId) (fun nb hnb => getNeighbors_time hnb)
          obtain ⟨hrec1, hrec2⟩ := ih ((env.getNeighbors ((s.store.getD curId dummyNode).x,
              (s.store.getD curId dummyNode).y, (s.store.getD curId dummyNode).t)).foldl
              (processNeighbor cons agentId goal (s.store.getD curId dummyNode) curId)
              { s with openList := openRest,
                       closedSet := s.closedSet ++ [((s.store.getD curId dummyNode).x,
                         (s.store.getD curId dummyNode).y, (s.store.getD curId dummyNode).t)] })
            res s' hEq hfold.1
          exact ⟨hrec1, hrec2.trans hfold.2⟩

/-- Claim C9: in any run of the low-level search from its initial
state, every node ever created satisfies `g = t`, and the branch that
would re-open an open-list duplicate with strictly lower `g` is never
executed (the ghost counter stays `0`). -/
theorem astar_g_eq_t_and_no_reopen (env : GridEnvironment) (cons : ConstraintsSet)
    (agentId : Nat) (start goal : Pos) (maxTime fuel : Nat) :
    (∀ n ∈ ((astarLoop env cons agentId goal maxTime fuel
        (astarInit env start goal)).2).store, n.g = n.t) ∧
    ((astarLoop env cons agentId goal maxTime fuel
        (astarInit env start goal)).2).reopens = 0 := by
  have hInit : AStarInv (astarInit env start goal) := by
    constructor
    · intro n hn
      rw [astarInit] at hn
      rw [List.mem_singleton.mp hn]
    · intro pr hpr
      rw [astarInit] at hpr
      rw [List.mem_singleton.mp hpr]
      exact ⟨by simp [astarInit], rfl⟩
  have h := astarLoop_inv fuel (astarInit env start goal)
    (astarLoop env cons agentId goal maxTime fuel (astarInit env start goal)).1
    (astarLoop env cons agentId goal maxTime fuel (astarInit env start goal)).2
    rfl hInit
  exact ⟨h.1.1, h.2⟩

/-! ## Claim C4 — choice of the split conflict (corrected)

`CBS.search` splits on `current_node.conflicts[0]`.  The list built by
`_find_conflicts` is sorted by `(t, type_order, a, b)`, with vertex
conflicts preceding edge conflicts of the same `t` — but an edge
conflict between steps `t-1` and `t` is recorded with arrival time `t`
(not `t-1` as the claim says), and it is recorded whether or not the
first agent moved. -/

/-- Both components of an `allPairs` pair are members of the list. -/
theorem mem_of_mem_allPairs {l : List α} {p : α × α} (h : p ∈ allPairs l) :
    p.1 ∈ l ∧ p.2 ∈ l := by
  induction l with
  | nil => exact absurd h (by simp [allPairs])
  | cons x xs ih =>
    rw [allPairs] at h
    rcases List.mem_append.mp h with h | h
    · rcases List.mem_map.mp h with ⟨y, hy, hxy⟩
      rw [← hxy]
      exact ⟨List.mem_cons_self _ _, List.mem_cons_of_mem _ hy⟩
    · have h2 := ih h
      exact ⟨List.mem_cons_of_mem _ h2.1, List.mem_cons_of_mem _ h2.2⟩

/-- Pair enumeration in `allPairs` order is lexicographically sorted on
the ids when the underlying list has strictly increasing ids. -/
theorem allPairs_pairwise {l : List (Nat × Pos)}
    (h : l.Pairwise (fun u v => u.1 < v.1)) :
    (allPairs l).Pairwise
      (fun p q => p.1.1 < q.1.1 ∨ (p.1.1 = q.1.1 ∧ p.2.1 < q.2.1)) := by
  induction l with
  | nil => exact List.Pairwise.nil
  | cons x xs ih =>
    rw [allPairs]
    have hx := (List.pairwise_cons.mp h).1
    have hxs := (List.pairwise_cons.mp h).2
    rw [List.pairwise_append]
    refine ⟨?_, ih hxs, ?_⟩
    · rw [List.pairwise_map]
      exact hxs.imp (fun hab => Or.inr ⟨rfl, hab⟩)
    · intro p hp q hq
      rcases List.mem_map.mp hp with ⟨u, _, hpu⟩
      have hq1 := (mem_of_mem_allPairs hq).1
      rw [← hpu]
      exact Or.inl (hx _ hq1)

/-- The key order is reflexive. -/
theorem tupLe_refl (k : Nat × Nat × Nat × Nat) : tupLe k k = true := by
  simp [tupLe]

/-- A conflict recorded by the vertex scan at `t` has type `vertex` and
time `t`. -/
theorem mem_vertexConflictsAt {positions : List (Nat × Pos)} {t : Nat} {c : Conflict}
    (h : c ∈ vertexConflictsAt positions t) : c.ctype = CType.vertex ∧ c.time = t := by
  rcases List.mem_filterMap.mp h with ⟨q, _, hq⟩
  split at hq
  · injection hq with h'
    rw [← h']
    exact ⟨rfl, rfl⟩
  · exact absurd hq (by simp)

/-- A conflict recorded by the swap scan at `t` has type `edge` and
time `t`. -/
theorem mem_edgeConflictsAt {extended : Solutions} {positions : List (Nat × Pos)}
    {t : Nat} {c : Conflict} (h : c ∈ edgeConflictsAt extended positions t) :
    c.ctype = CType.edge ∧ c.time = t := by
  rw [edgeConflictsAt] at h
  split at h
  · rcases List.mem_filterMap.mp h with ⟨q, _, hq⟩
    split at hq
    · injection hq with h'
      rw [← h']
      exact ⟨rfl, rfl⟩
    · exact absurd hq (by simp)
  · exact absurd h (by simp)

/-- Any conflict in a step's list has time exactly `t`. -/
theorem mem_stepConflicts_time {extended : Solutions} {t : Nat} {c : Conflict}
    (h : c ∈ stepConflicts extended t) : c.time = t := by
  rcases List.mem_append.mp h with h | h
  · exact (mem_vertexConflictsAt h).2
  · exact (mem_edgeConflictsAt h).2

/-- Any conflict found while scanning from `t` has time `≥ t`. -/
theorem mem_scanConflicts_time {extended : Solutions} {c : Conflict} :
    ∀ (r t : Nat), c ∈ scanConflicts extended r t → t ≤ c.time := by
  intro r
  induction r with
  | zero => intro t h; exact absurd h (by simp [scanConflicts])
  | succ r ih =>
    intro t h
    rw [scanConflicts] at h
    rcases List.mem_append.mp h with h | h
    · rw [mem_stepConflicts_time h]
    · exact Nat.le_of_succ_le (ih _ h)

/-- The vertex scan at `t` produces a list sorted by the `(t,
type_order, a, b)` key whenever the positions have increasing ids. -/
theorem vertexConflictsAt_sorted {positions : List (Nat × Pos)} {t : Nat}
    (h : positions.Pairwise (fun u v => u.1 < v.1)) :
    (vertexConflictsAt positions t).Pairwise
      (fun c c' => tupLe (conflictKey c) (conflictKey c') = true) := by
  refine List.Pairwise.filterMap _ ?_ (allPairs_pairwise h)
  intro q q' hrel b hb b' hb'
  have hbv : b = ⟨q.1.1, q.2.1, q.1.2, t, CType.vertex⟩ := by
    by_cases hc : q.1.2 = q.2.2
    · rw [if_pos hc] at hb; exact (Option.mem_some_iff.mp hb).symm
    · rw [if_neg hc] at hb; exact absurd hb (by simp)
  have hbv' : b' = ⟨q'.1.1, q'.2.1, q'.1.2, t, CType.vertex⟩ := by
    by_cases hc : q'.1.2 = q'.2.2
    · rw [if_pos hc] at hb'; exact (Option.mem_some_iff.mp hb').symm
    · rw [if_neg hc] at hb'; exact absurd hb' (by simp)
  rw [hbv, hbv', tupLe]
  apply decide_eq_true
  rcases hrel with hrel | hrel
  · exact Or.inr ⟨rfl, Or.inr ⟨rfl, Or.inl hrel⟩⟩
  · exact Or.inr ⟨rfl, Or.inr ⟨rfl, Or.inr ⟨hrel.1, Nat.le_of_lt hrel.2⟩⟩⟩

/-- The swap scan at `t` produces a list sorted by the key whenever the
positions have increasing ids. -/
theorem edgeConflictsAt_sorted {extended : Solutions} {positions : List (Nat × Pos)}
    {t : Nat} (h : positions.Pairwise (fun u v => u.1 < v.1)) :
    (edgeConflictsAt extended positions t).Pairwise
      (fun c c' => tupLe (conflictKey c) (conflictKey c') = true) := by
  rw [edgeConflictsAt]
  split
  · refine List.Pairwise.filterMap _ ?_ (allPairs_pairwise h)
    intro q q' hrel b hb b' hb'
    have hbv : b = ⟨q.1.1, q.2.1, q.1.2, t, CType.edge⟩ := by
      split at hb
      · exact (Option.mem_some_iff.mp hb).symm
      · exact absurd hb (by simp)
    have hbv' : b' = ⟨q'.1.1, q'.2.1, q'.1.2, t, CType.edge⟩ := by
      split at hb'
      · exact (Option.mem_some_iff.mp hb').symm
      · exact absurd hb' (by simp)
    rw [hbv, hbv', tupLe]
    apply decide_eq_true
    rcases hrel with hrel | hrel
    · exact Or.inr ⟨rfl, Or.inr ⟨rfl, Or.inl hrel⟩⟩
    · exact Or.inr ⟨rfl, Or.inr ⟨rfl, Or.inr ⟨hrel.1, Nat.le_of_lt hrel.2⟩⟩⟩
  · exact List.Pairwise.nil

/-- One step's conflicts are key-sorted: vertex conflicts come first
and share the time `t` with the edge conflicts that follow. -/
theorem stepConflicts_sorted {extended : Solutions} {t : Nat}
    (h : (positionsAt extended t).Pairwise (fun u v => u.1 < v.1)) :
    (stepConflicts extended t).Pairwise
      (fun c c' => tupLe (conflictKey c) (conflictKey c') = true) := by
  rw [stepConflicts, List.pairwise_append]
  refine ⟨vertexConflictsAt_sorted h, edgeConflictsAt_sorted h, ?_⟩
  intro a ha b hb
  have hav := mem_vertexConflictsAt ha
  have hbe := mem_edgeConflictsAt hb
  have hk : conflictKey a = (t, 0, a.agent1, a.agent2) := by
    rw [conflictKey, hav.1, hav.2]
  have hk2 : conflictKey b = (t, 1, b.agent1, b.agent2) := by
    rw [conflictKey, hbe.1, hbe.2]
  rw [hk, hk2, tupLe]
  apply decide_eq_true
  exact Or.inr ⟨rfl, Or.inl Nat.zero_lt_one⟩

/-- The full scan is key-sorted. -/
theorem scanConflicts_sorted (extended : Solutions)
    (h : ∀ t, (positionsAt extended t).Pairwise (fun u v => u.1 < v.1)) :
    ∀ (r t : Nat),
      (scanConflicts extended r t).Pairwise
        (fun c c' => tupLe (conflictKey c) (conflictKey c') = true) := by
  intro r
  induction r with
  | zero => intro t; exact List.Pairwise.nil
  | succ r ih =>
    intro t
    rw [scanConflicts, List.pairwise_append]
    refine ⟨stepConflicts_sorted (h t), ih (t + 1), ?_⟩
    intro a ha b hb
    have hat := mem_stepConflicts_time ha
    have hbt := mem_scanConflicts_time _ _ hb
    rw [tupLe]
    apply decide_eq_true
    refine Or.inl ?_
    show a.time < b.time
    omega

/-- The positions at any time keep the solutions' ids, so increasing
solution ids give increasing position ids. -/
theorem positionsAt_pairwise (sols : Solutions) (m t : Nat)
    (h : (sols.map Prod.fst).Pairwise (· < ·)) :
    (positionsAt (extendPaths sols m) t).Pairwise (fun u v => u.1 < v.1) := by
  rw [positionsAt, extendPaths, List.map_map, List.pairwise_map]
  rw [List.pairwise_map] at h
  exact h.imp (fun hab => hab)

/-- Claim C4 as amended: the conflict CBS splits on — the head of
`_find_conflicts`' list — is the lexicographically smallest conflict of
the joint plan by `(t, type_order, a, b)` (ids increasing along the
solutions dict), with vertex conflicts ordered before edge conflicts at
equal `t`, where an edge conflict between timesteps `t-1` and `t` is
recorded with arrival time `t` and position `pos_a(t)`, and is recorded
whenever the two agents swap cells, whether or not agent `a` moved. -/
theorem split_conflict_is_lex_min (sols : Solutions) (cs : List Conflict)
    (c0 c : Conflict) (hkeys : (sols.map Prod.fst).Pairwise (· < ·))
    (h : findConflicts sols = .ok cs) (h0 : cs.head? = some c0) (hc : c ∈ cs) :
    tupLe (conflictKey c0) (conflictKey c) = true := by
  cases sols with
  | nil => exact absurd h (by simp [findConflicts])
  | cons p rest =>
    rw [findConflicts, if_neg (List.cons_ne_nil p rest)] at h
    injection h with h'
    have hsorted := scanConflicts_sorted
      (extendPaths (p :: rest) (((p :: rest).map (fun p => p.2.length)).foldr Nat.max 0))
      (fun t => positionsAt_pairwise (p :: rest)
        (((p :: rest).map (fun p => p.2.length)).foldr Nat.max 0) t hkeys)
      (((p :: rest).map (fun p => p.2.length)).foldr Nat.max 0) 0
    rw [h'] at hsorted
    cases cs with
    | nil => exact absurd h0 (by simp)
    | cons a tail =>
      have ha : c0 = a := by
        injection h0 with h0'
        exact h0'.symm
      rcases List.mem_cons.mp hc with hca | hca
      · rw [ha, hca]
        exact tupLe_refl _
      · rw [ha]
        exact List.rel_of_pairwise_cons hsorted hca

/-- Witness for `split_conflict_is_lex_min`: the head-on swap instance,
whose single conflict is trivially the minimum. -/
theorem split_conflict_is_lex_min_witness :
    tupLe (conflictKey ⟨0, 1, (0, 1), 1, CType.edge⟩)
      (conflictKey ⟨0, 1, (0, 1), 1, CType.edge⟩) = true :=
  split_conflict_is_lex_min [(0, [(0, 0), (0, 1)]), (1, [(0, 1), (0, 0)])]
    [⟨0, 1, (0, 1), 1, CType.edge⟩] ⟨0, 1, (0, 1), 1, CType.edge⟩
    ⟨0, 1, (0, 1), 1, CType.edge⟩ (by decide) (by decide) (by decide)
    (by decide)

/-- Counterexample to claim C4 as stated: in the head-on swap instance
the code's conflict list is a single edge conflict recorded with
arrival time `1`, while the claim's recording rule (time `t-1`,
requiring motion) yields a single conflict with time `0`; the conflict
CBS splits on therefore does not carry the claim's time `t-1`. -/
theorem split_conflict_time_cex :
    findConflicts [(0, [(0, 0), (0, 1)]), (1, [(0, 1), (0, 0)])] =
      .ok [⟨0, 1, (0, 1), 1, CType.edge⟩] ∧
    claimConflicts [(0, [(0, 0), (0, 1)]), (1, [(0, 1), (0, 0)])] =
      [⟨0, 1, (0, 0), (0, 1), 0, CType.edge⟩] ∧
    (⟨0, 1, (0, 1), 1, CType.edge⟩ : Conflict).time ≠
      (⟨0, 1, (0, 0), (0, 1), 0, CType.edge⟩ : SpecConflict).time := by
  decide

/-! ## Claim C1 — validity of the solved joint plan (confirmed)

Helper lemmas: membership facts for the heap operations, invariants of
the CBS loop, and completeness of the conflict scan. -/

/-- A `getD` read is a member of the list or the default. -/
theorem getD_mem_or (l : List α) (n : Nat) (d : α) : l.getD n d ∈ l ∨ l.getD n d = d := by
  by_cases h : n < l.length
  · left
    rw [List.getD_eq_getElem _ _ h]
    exact List.getElem_mem h
  · right
    exact List.getD_eq_default _ _ (Nat.le_of_not_lt h)

/-- Elements after a `_siftdown` come from the heap or are the new item. -/
theorem mem_siftdown {lt : α → α → Bool} {item : α} {startpos : Nat} {x : α} :
    ∀ (fuel : Nat) (heap : List α) (pos : Nat),
      x ∈ siftdown lt item startpos fuel heap pos → x ∈ heap ∨ x = item := by
  intro fuel
  induction fuel with
  | zero =>
    intro heap pos h
    rw [siftdown] at h
    exact List.mem_or_eq_of_mem_set h
  | succ fuel ih =>
    intro heap pos h
    rw [siftdown] at h
    split at h
    · dsimp only at h
      split at h
      · rcases ih _ _ h with h' | h'
        · rcases List.mem_or_eq_of_mem_set h' with h'' | h''
          · exact Or.inl h''
          · rcases getD_mem_or heap ((pos - 1) / 2) item with hm | hm
            · exact Or.inl (by rw [h'']; exact hm)
            · exact Or.inr (by rw [h'']; exact hm)
        · exact Or.inr h'
      · exact List.mem_or_eq_of_mem_set h
    · exact List.mem_or_eq_of_mem_set h

/-- Elements after a `heappush` come from the heap or are the item. -/
theorem mem_heappush {lt : α → α → Bool} {heap : List α} {item x : α}
    (h : x ∈ heappush lt heap item) : x ∈ heap ∨ x = item := by
  rcases mem_siftdown _ _ _ h with h' | h'
  · rcases List.mem_append.mp h' with h'' | h''
    · exact Or.inl h''
    · exact Or.inr (List.mem_singleton.mp h'')
  · exact Or.inr h'

/-- Elements after the `_siftup` walk come from the heap or are the item. -/
theorem mem_siftupLoop {lt : α → α → Bool} {item : α} {endpos : Nat} {x : α} :
    ∀ (fuel : Nat) (heap : List α) (pos : Nat),
      x ∈ (siftupLoop lt item endpos fuel heap pos).1 → x ∈ heap ∨ x = item := by
  intro fuel
  induction fuel with
  | zero =>
    intro heap pos h
    rw [siftupLoop] at h
    exact Or.inl h
  | succ fuel ih =>
    intro heap pos h
    rw [siftupLoop] at h
    split at h
    · dsimp only at h
      rcases ih _ _ h with h' | h'
      · rcases List.mem_or_eq_of_mem_set h' with h'' | h''
        · exact Or.inl h''
        · rcases getD_mem_or heap _ item with hm | hm
          · exact Or.inl (by rw [h'']; exact hm)
          · exact Or.inr (by rw [h'']; exact hm)
      · exact Or.inr h'
    · exact Or.inl h

/-- Elements after a `_siftup` come from the heap or are the default
read at the sift position. -/
theorem mem_siftup {lt : α → α → Bool} {heap : List α} {pos : Nat} {dflt x : α}
    (h : x ∈ siftup lt heap pos dflt) : x ∈ heap ∨ x = dflt := by
  rw [siftup] at h
  rcases mem_siftdown _ _ _ h with h' | h'
  · rcases mem_siftupLoop _ _ _ h' with h'' | h''
    · exact Or.inl h''
    · rcases getD_mem_or heap pos dflt with hm | hm
      · exact Or.inl (by rw [h'']; exact hm)
      · exact Or.inr (by rw [h'']; exact hm)
  · rcases getD_mem_or heap pos dflt with hm | hm
    · exact Or.inl (by rw [h']; exact hm)
    · exact Or.inr (by rw [h']; exact hm)

/-- The last element of a list is a member. -/
theorem mem_of_getLast? {l : List α} {a : α} (h : l.getLast? = some a) : a ∈ l := by
  cases l with
  | nil => exact absurd h (by simp)
  | cons x xs =>
    rw [List.getLast?_eq_getLast _ (by simp)] at h
    injection h with h'
    rw [← h']
    exact List.getLast_mem _

/-- A `heappop` returns a member of the heap, and the remaining heap's
elements all come from the heap. -/
theorem mem_heappop {lt : α → α → Bool} {heap rest' : List α} {r : α}
    (h : heappop lt heap = some (r, rest')) : r ∈ heap ∧ ∀ x ∈ rest', x ∈ heap := by
  rw [heappop] at h
  cases hl : heap.getLast? with
  | none =>
    rw [hl] at h
    exact absurd h (by simp)
  | some lastelt =>
    rw [hl] at h
    have hsub : ∀ x ∈ heap.dropLast, x ∈ heap :=
      fun x hx => (List.dropLast_sublist heap).subset hx
    cases hrest : heap.dropLast with
    | nil =>
      rw [hrest] at h
      injection h with h'
      have h1 := congrArg Prod.fst h'
      have h2 := congrArg Prod.snd h'
      dsimp at h1 h2
      constructor
      · rw [← h1]
        exact mem_of_getLast? hl
      · intro x hx
        rw [← h2] at hx
        exact absurd hx (by simp)
    | cons r0 rs =>
      rw [hrest] at h
      injection h with h'
      have h1 := congrArg Prod.fst h'
      have h2 := congrArg Prod.snd h'
      dsimp at h1 h2
      constructor
      · rw [← h1]
        exact hsub r0 (by rw [hrest]; exact List.mem_cons_self _ _)
      · intro x hx
        rw [← h2] at hx
        rcases mem_siftup hx with h3 | h3
        · rcases List.mem_cons.mp h3 with h4 | h4
          · rw [h4]
            exact mem_of_getLast? hl
          · exact hsub x (by rw [hrest]; exact List.mem_cons_of_mem _ h4)
        · rw [h3]
          exact mem_of_getLast? hl

/-- The solutions invariant carried through the CBS loop: every stored
plan is non-empty (only `if path:`-guarded paths are inserted) and the
dict keys are distinct. -/
def GoodSols (sols : Solutions) : Prop :=
  (∀ pr ∈ sols, pr.2 ≠ []) ∧ (sols.map Prod.fst).Nodup

/-- The node invariant: the cached `conflicts` list is what
`_find_conflicts` computes for the node's solutions, and the solutions
are well-formed. -/
def GoodNode (n : CBSNode) : Prop :=
  findConflicts n.solutions = .ok n.conflicts ∧ GoodSols n.solutions

/-- Every node of the open list is good. -/
def GoodOpen (l : List CBSNode) : Prop := ∀ n ∈ l, GoodNode n

/-- Entries of `updateAssoc` come from the list or are the new pair. -/
theorem mem_updateAssoc {l : List (Nat × β)} {k : Nat} {v : β} {pr : Nat × β}
    (h : pr ∈ updateAssoc l k v) : pr ∈ l ∨ pr = (k, v) := by
  induction l with
  | nil =>
    right
    simpa [updateAssoc] using h
  | cons p rest ih =>
    obtain ⟨p1, p2⟩ := p
    by_cases hp : p1 = k
    · rw [updateAssoc, if_pos hp] at h
      rcases List.mem_cons.mp h with h | h
      · right; exact h
      · left; exact List.mem_cons_of_mem _ h
    · rw [updateAssoc, if_neg hp] at h
      rcases List.mem_cons.mp h with h | h
      · left; rw [h]; exact List.mem_cons_self _ _
      · rcases ih h with h' | h'
        · left; exact List.mem_cons_of_mem _ h'
        · right; exact h'

/-- `updateAssoc` keeps the keys distinct. -/
theorem updateAssoc_keys_nodup {l : List (Nat × β)} {k : Nat} {v : β}
    (h : (l.map Prod.fst).Nodup) : ((updateAssoc l k v).map Prod.fst).Nodup := by
  induction l with
  | nil => simp [updateAssoc]
  | cons p rest ih =>
    obtain ⟨p1, p2⟩ := p
    rw [List.map_cons, List.nodup_cons] at h
    by_cases hp : p1 = k
    · rw [updateAssoc, if_pos hp, List.map_cons, List.nodup_cons]
      refine ⟨?_, h.2⟩
      rw [← hp]
      exact h.1
    · rw [updateAssoc, if_neg hp, List.map_cons, List.nodup_cons]
      refine ⟨?_, ih h.2⟩
      intro hmem
      rcases mem_keys_updateAssoc hmem with h' | h'
      · exact h.1 h'
      · exact hp h'

/-- `updateAssoc` with a non-empty plan preserves the solutions
invariant. -/
theorem goodSols_updateAssoc {sols : Solutions} {k : Nat} {v : Path}
    (h : GoodSols sols) (hv : v ≠ []) : GoodSols (updateAssoc sols k v) := by
  refine ⟨?_, updateAssoc_keys_nodup h.2⟩
  intro pr hpr
  rcases mem_updateAssoc hpr with h' | h'
  · exact h.1 pr h'
  · rw [h']
    exact hv

/-- Root planning yields well-formed solutions. -/
theorem findInitialSolutionsAux_good (env : GridEnvironment) (cons : ConstraintsSet)
    (config : Config) (fuel : Nat) :
    ∀ (rest : List Agent) (i : Nat) (solsAcc : Solutions) (agentsAcc : List Agent)
      (sols : Solutions) (ags : List Agent),
      GoodSols solsAcc →
      findInitialSolutionsAux env cons config fuel rest i solsAcc agentsAcc = .ok (sols, ags) →
      GoodSols sols := by
  intro rest
  induction rest with
  | nil =>
    intro i solsAcc agentsAcc sols ags h0 h
    simp [findInitialSolutionsAux] at h
    rw [← h.1]
    exact h0
  | cons ag rest ih =>
    intro i solsAcc agentsAcc sols ags h0 h
    rw [findInitialSolutionsAux] at h
    split at h
    · exact absurd h (by simp)
    · next path heq =>
      split at h
      · exact ih _ _ _ _ _ h0 h
      · next hp => exact ih _ _ _ _ _ (goodSols_updateAssoc h0 hp) h

/-- `_find_initial_solutions` yields well-formed solutions. -/
theorem findInitialSolutions_good {env : GridEnvironment} {agents : List Agent}
    {cons : ConstraintsSet} {config : Config} {fuel : Nat} {sols : Solutions}
    {ags : List Agent}
    (h : findInitialSolutions env agents cons config fuel = .ok (sols, ags)) :
    GoodSols sols :=
  findInitialSolutionsAux_good env cons config fuel agents 0 [] agents sols ags
    ⟨by simp, by simp⟩ h

/-- Expanding a single child either returns a conflict-free solved plan
or pushes a good node. -/
theorem expandChild_good {env : GridEnvironment} {config : Config} {fuel : Nat}
    {conflict : Conflict} {parent : CBSNode} {agentId : Nat}
    {openList : List CBSNode} {agents : List Agent}
    (hp : GoodSols parent.solutions) (ho : GoodOpen openList) :
    (∀ sols ags1,
      expandChild env config fuel conflict parent agentId openList agents =
        .ok (.inl (.solved sols, ags1)) →
      findConflicts sols = .ok [] ∧ GoodSols sols) ∧
    (∀ open' ags1,
      expandChild env config fuel conflict parent agentId openList agents =
        .ok (.inr (open', ags1)) →
      GoodOpen open') := by
  constructor
  · intro sols ags1 h
    rw [expandChild] at h
    split at h
    · exact absurd h (by simp)
    · split at h
      · exact absurd h (by simp)
      · next newPath hpath =>
        dsimp only at h
        split at h
        · exact absurd h (by simp)
        · next newConflicts hconf =>
          split at h
          · next hnil =>
            injection h with h1
            injection h1 with h2
            have h3 := congrArg Prod.fst h2
            dsimp at h3
            injection h3 with h4
            rw [← h4, ← hnil]
            refine ⟨hconf, ?_⟩
            by_cases hq : newPath = []
            · rw [if_pos hq]
              exact hp
            · rw [if_neg hq]
              exact goodSols_updateAssoc hp hq
          · exact absurd h (by simp)
  · intro open' ags1 h
    rw [expandChild] at h
    split at h
    · exact absurd h (by simp)
    · split at h
      · exact absurd h (by simp)
      · next newPath hpath =>
        dsimp only at h
        split at h
        · exact absurd h (by simp)
        · next newConflicts hconf =>
          split at h
          · exact absurd h (by simp)
          · next hnil =>
            injection h with h1
            injection h1 with h2
            have h3 := congrArg Prod.fst h2
            dsimp at h3
            intro n hn
            rw [← h3] at hn
            rcases mem_heappush hn with hn' | hn'
            · exact ho n hn'
            · rw [hn']
              refine ⟨hconf, ?_⟩
              by_cases hq : newPath = []
              · rw [if_pos hq]
                exact hp
              · rw [if_neg hq]
                exact goodSols_updateAssoc hp hq

/-- Expanding both children preserves the invariants. -/
theorem expandChildren_good {env : GridEnvironment} {config : Config} {fuel : Nat}
    {conflict : Conflict} {parent : CBSNode} :
    ∀ (ids : List Nat) (openList : List CBSNode) (agents : List Agent),
      GoodSols parent.solutions → GoodOpen openList →
      (∀ sols ags1,
        expandChildren env config fuel conflict parent ids openList agents =
          .ok (.inl (.solved sols, ags1)) →
        findConflicts sols = .ok [] ∧ GoodSols sols) ∧
      (∀ open' ags1,
        expandChildren env config fuel conflict parent ids openList agents =
          .ok (.inr (open', ags1)) →
        GoodOpen open') := by
  intro ids
  induction ids with
  | nil =>
    intro openList agents hp ho
    constructor
    · intro sols ags1 h
      rw [expandChildren] at h
      exact absurd h (by simp)
    · intro open' ags1 h
      rw [expandChildren] at h
      injection h with h1
      injection h1 with h2
      have h3 := congrArg Prod.fst h2
      dsimp at h3
      rw [← h3]
      exact ho
  | cons agentId rest ih =>
    intro openList agents hp ho
    constructor
    · intro sols ags1 h
      rw [expandChildren] at h
      split at h
      · exact absurd h (by simp)
      · next early hec =>
        injection h with h1
        injection h1 with h2
        rw [h2] at hec
        exact (expandChild_good hp ho).1 sols ags1 hec
      · next openList' agents' hec =>
        exact (ih openList' agents' hp ((expandChild_good hp ho).2 _ _ hec)).1 sols ags1 h
    · intro open' ags1 h
      rw [expandChildren] at h
      split at h
      · exact absurd h (by simp)
      · next early hec => exact absurd h (by simp)
      · next openList' agents' hec =>
        exact (ih openList' agents' hp ((expandChild_good hp ho).2 _ _ hec)).2 open' ags1 h

/-- Along the CBS loop, a `solved` return always carries a joint plan
whose conflict scan is empty and whose solutions are well-formed. -/
theorem cbsLoop_solved {env : GridEnvironment} {config : Config} {fuel : Nat} :
    ∀ (remaining : Nat) (openList : List CBSNode) (agents : List Agent)
      (sols : Solutions) (ags : List Agent),
      cbsLoop env config fuel remaining openList agents = .ok (.solved sols, ags) →
      GoodOpen openList →
      findConflicts sols = .ok [] ∧ GoodSols sols := by
  intro remaining
  induction remaining with
  | zero =>
    intro openList agents sols ags h ho
    rw [cbsLoop] at h
    injection h with h1
    have h2 := congrArg Prod.fst h1
    dsimp at h2
    rw [cbsPostLoop] at h2
    split at h2
    · exact absurd h2 (by simp)
    · exact absurd h2 (by simp)
  | succ remaining ih =>
    intro openList agents sols ags h ho
    rw [cbsLoop] at h
    cases hpop : heappop cbsLt openList with
    | none =>
      rw [hpop] at h
      injection h with h1
      have h2 := congrArg Prod.fst h1
      dsimp at h2
      exact absurd h2 (by simp [cbsPostLoop, heappop])
    | some pr =>
      obtain ⟨current, openRest⟩ := pr
      rw [hpop] at h
      dsimp only at h
      have hmem := mem_heappop hpop
      have hcur : GoodNode current := ho _ hmem.1
      have hrest : GoodOpen openRest := fun n hn => ho n (hmem.2 n hn)
      cases hc : current.conflicts with
      | nil =>
        rw [hc] at h
        dsimp only at h
        injection h with h1
        have h2 := congrArg Prod.fst h1
        dsimp at h2
        injection h2 with h3
        rw [← h3]
        refine ⟨?_, hcur.2⟩
        rw [hcur.1, hc]
      | cons conflict crest =>
        rw [hc] at h
        dsimp only at h
        cases hec : expandChildren env config fuel conflict current
            [conflict.agent1, conflict.agent2] openRest agents with
        | error e =>
          rw [hec] at h
          exact absurd h (by simp)
        | ok val =>
          rw [hec] at h
          cases val with
          | inl early =>
            dsimp only at h
            injection h with h1
            rw [h1] at hec
            exact (expandChildren_good _ _ _ hcur.2 hrest).1 sols ags hec
          | inr pr2 =>
            obtain ⟨openList', agents'⟩ := pr2
            dsimp only at h
            exact ih openList' agents' sols ags h
              ((expandChildren_good _ _ _ hcur.2 hrest).2 _ _ hec)

/-- Members of a list bound its fold with `Nat.max`. -/
theorem le_foldr_max {l : List Nat} {x : Nat} (h : x ∈ l) : x ≤ l.foldr Nat.max 0 := by
  induction l with
  | nil => simp at h
  | cons y ys ih =>
    rw [List.foldr_cons]
    rcases List.mem_cons.mp h with h | h
    · rw [h]; exact Nat.le_max_left _ _
    · exact le_trans (ih h) (Nat.le_max_right _ _)

/-- Over positive entries, the max of the predecessors is strictly
below the max. -/
theorem foldr_max_pred : ∀ {l : List Nat}, l ≠ [] → (∀ x ∈ l, 1 ≤ x) →
    (l.map (fun x => x - 1)).foldr Nat.max 0 + 1 ≤ l.foldr Nat.max 0 := by
  intro l
  induction l with
  | nil => intro h; exact absurd rfl h
  | cons x xs ih =>
    intro _ h1
    cases xs with
    | nil =>
      simp only [List.map_cons, List.map_nil, List.foldr_cons, List.foldr_nil,
        Nat.max_zero]
      have hx := h1 x (List.mem_cons_self _ _)
      omega
    | cons y ys =>
      have ih2 := ih (by simp) (fun z hz => h1 z (List.mem_cons_of_mem _ hz))
      simp only [List.map_cons, List.foldr_cons] at ih2 ⊢
      have hx := h1 x (List.mem_cons_self _ _)
      have key : ∀ (a b : Nat), 1 ≤ a → Nat.max (a - 1) b + 1 = Nat.max a (b + 1) := by
        intro a b ha
        show ((a - 1) ⊔ b) + 1 = a ⊔ (b + 1)
        rcases Nat.le_total (a - 1) b with hab | hab
        · rw [Nat.max_eq_right hab, Nat.max_eq_right (by omega : a ≤ b + 1)]
        · rw [Nat.max_eq_left hab, Nat.max_eq_left (by omega : b + 1 ≤ a)]
          omega
      rw [key _ _ hx]
      exact Nat.max_le.mpr ⟨Nat.le_max_left _ _,
        le_trans ih2 (Nat.le_max_right _ _)⟩

/-- An empty scan means every step in range is conflict-free. -/
theorem stepConflicts_of_scan_nil {extended : Solutions} :
    ∀ (r t : Nat), scanConflicts extended r t = [] →
      ∀ u, t ≤ u → u < t + r → stepConflicts extended u = [] := by
  intro r
  induction r with
  | zero => intro t _ u h1 h2; omega
  | succ r ih =>
    intro t h u h1 h2
    rw [scanConflicts] at h
    rcases List.append_eq_nil.mp h with ⟨h3, h4⟩
    by_cases hu : u = t
    · rw [hu]; exact h3
    · exact ih (t + 1) h4 u (by omega) (by omega)

/-- The ordered pair of the `i`-th and `j`-th elements (`i < j`) occurs
in the pair enumeration. -/
theorem pair_mem_allPairs (d : α) :
    ∀ (l : List α) (i j : Nat), i < j → j < l.length →
      (l.getD i d, l.getD j d) ∈ allPairs l := by
  intro l
  induction l with
  | nil => intro i j _ h2; simp at h2
  | cons x xs ih =>
    intro i j h1 h2
    rw [allPairs]
    cases i with
    | zero =>
      apply List.mem_append_left
      cases j with
      | zero => omega
      | succ j' =>
        rw [List.getD_cons_zero, List.getD_cons_succ]
        refine List.mem_map.mpr ⟨xs.getD j' d, ?_, rfl⟩
        have hj : j' < xs.length := by simpa using h2
        rw [List.getD_eq_getElem _ _ hj]
        exact List.getElem_mem hj
    | succ i' =>
      cases j with
      | zero => omega
      | succ j' =>
        apply List.mem_append_right
        rw [List.getD_cons_succ, List.getD_cons_succ]
        exact ih i' j' (by omega) (by simpa using h2)

/-- Reading a padded plan at `t < M` gives the padded position. -/
theorem padded_getD_eq_padPos {p : Path} {M t : Nat} (ht : t < M) (hlen : p.length ≤ M) :
    (p ++ List.replicate (M - p.length) (p.getLastD (0, 0))).getD t (0, 0) = padPos p t := by
  by_cases h : t < p.length
  · rw [List.getD_append _ _ _ _ h, padPos, if_pos h]
  · rw [List.getD_append_right _ _ _ _ (Nat.le_of_not_lt h), padPos, if_neg h]
    have hlt : t - p.length < M - p.length := by omega
    rw [List.getD_eq_getElem _ _ (by rw [List.length_replicate]; exact hlt)]
    rw [List.getElem_replicate]

/-- With distinct keys, looking up the `i`-th key returns the `i`-th
value. -/
theorem alookup_getD_self :
    ∀ {l : List (Nat × Path)}, (l.map Prod.fst).Nodup →
      ∀ (i : Nat) (d : Nat × Path), i < l.length →
        alookup l (l.getD i d).1 = some (l.getD i d).2 := by
  intro l
  induction l with
  | nil => intro _ i d h; simp at h
  | cons p rest ih =>
    intro hnd i d h
    obtain ⟨p1, p2⟩ := p
    rw [List.map_cons, List.nodup_cons] at hnd
    cases i with
    | zero =>
      rw [List.getD_cons_zero, alookup, if_pos rfl]
    | succ i' =>
      rw [List.getD_cons_succ]
      have hi : i' < rest.length := by simpa using h
      have hkey : (rest.getD i' d).1 ∈ rest.map Prod.fst := by
        rw [List.getD_eq_getElem _ _ hi]
        exact List.mem_map_of_mem _ (List.getElem_mem hi)
      rw [alookup, if_neg (fun he => hnd.1 (by rw [he]; exact hkey))]
      exact ih hnd.2 i' d hi

/-- Reading the built positions dict at an index yields the padded
position of the corresponding solutions entry. -/
theorem positions_getD (sols : Solutions) (M t i : Nat) :
    (positionsAt (extendPaths sols M) t).getD i (posFun t (padFun M (0, []))) =
      posFun t (padFun M (sols.getD i (0, []))) := by
  rw [positionsAt, extendPaths]
  rw [List.getD_map _ (padFun M ((0, []) : Nat × Path)) (posFun t)]
  rw [List.getD_map sols ((0, []) : Nat × Path) (padFun M)]

/-- Reading the extended paths at an index yields the padded entry. -/
theorem extendPaths_getD (sols : Solutions) (M i : Nat) :
    (extendPaths sols M).getD i (padFun M (0, [])) = padFun M (sols.getD i (0, [])) := by
  rw [extendPaths]
  exact List.getD_map sols ((0, []) : Nat × Path) (padFun M)

/-- The snd component of a built position is the padded position. -/
theorem posFun_padFun_snd {pr : Nat × Path} {M t : Nat} (ht : t < M)
    (hlen : pr.2.length ≤ M) : (posFun t (padFun M pr)).2 = padPos pr.2 t :=
  padded_getD_eq_padPos ht hlen

/-- A padded path has length `M`. -/
theorem padFun_len {pr : Nat × Path} {M : Nat} (h : pr.2.length ≤ M) :
    ((padFun M pr).2).length = M := by
  rw [padFun, List.length_append, List.length_replicate]
  omega

/-- In-range `getD` does not depend on the default. -/
theorem getD_default_irrel {l : List Pos} {n : Nat} (h : n < l.length) (d d' : Pos) :
    l.getD n d = l.getD n d' := by
  rw [List.getD_eq_getElem _ _ h, List.getD_eq_getElem _ _ h]

/-- Core completeness step: if the scan of time `t` recorded nothing,
then the ordered pair `(a, b)` has no vertex coincidence at `t` and no
swap between `t-1` and `t`. -/
theorem pair_predicates_of_step_nil {sols : Solutions} {M : Nat}
    (hnodup : (sols.map Prod.fst).Nodup)
    (hlenle : ∀ pr ∈ sols, pr.2.length ≤ M)
    {t : Nat} (ht : t < M)
    (hstept : stepConflicts (extendPaths sols M) t = [])
    {a b : Nat} (hab : a < b) (hb : b < sols.length) :
    padPos (sols.getD a (0, [])).2 t ≠ padPos (sols.getD b (0, [])).2 t ∧
    (1 ≤ t →
      ¬(padPos (sols.getD a (0, [])).2 (t - 1) = padPos (sols.getD b (0, [])).2 t ∧
        padPos (sols.getD b (0, [])).2 (t - 1) = padPos (sols.getD a (0, [])).2 t)) := by
  rw [stepConflicts] at hstept
  rcases List.append_eq_nil.mp hstept with ⟨hv, he⟩
  have ha : a < sols.length := lt_trans hab hb
  have hga : sols.getD a (0, []) ∈ sols := by
    rw [List.getD_eq_getElem _ _ ha]
    exact List.getElem_mem ha
  have hgb : sols.getD b (0, []) ∈ sols := by
    rw [List.getD_eq_getElem _ _ hb]
    exact List.getElem_mem hb
  have hlena := hlenle _ hga
  have hlenb := hlenle _ hgb
  have hposlen : (positionsAt (extendPaths sols M) t).length = sols.length := by
    rw [positionsAt, List.length_map, extendPaths, List.length_map]
  have hq := pair_mem_allPairs (posFun t (padFun M (0, [])))
    (positionsAt (extendPaths sols M) t) a b hab (by rw [hposlen]; exact hb)
  rw [positions_getD, positions_getD] at hq
  have hsa : (posFun t (padFun M (sols.getD a (0, [])))).2 =
      padPos (sols.getD a (0, [])).2 t := posFun_padFun_snd ht hlena
  have hsb : (posFun t (padFun M (sols.getD b (0, [])))).2 =
      padPos (sols.getD b (0, [])).2 t := posFun_padFun_snd ht hlenb
  have hpa : posFun t (padFun M (sols.getD a (0, []))) =
      ((sols.getD a (0, [])).1, padPos (sols.getD a (0, [])).2 t) :=
    Prod.ext_iff.mpr ⟨rfl, hsa⟩
  have hpb : posFun t (padFun M (sols.getD b (0, []))) =
      ((sols.getD b (0, [])).1, padPos (sols.getD b (0, [])).2 t) :=
    Prod.ext_iff.mpr ⟨rfl, hsb⟩
  rw [hpa, hpb] at hq
  constructor
  · intro heq
    rw [vertexConflictsAt] at hv
    have hnone := List.filterMap_eq_nil_iff.mp hv _ hq
    dsimp only at hnone
    rw [if_pos heq] at hnone
    exact absurd hnone (by simp)
  · intro h1t hcontra
    rw [edgeConflictsAt, if_pos (by omega : 0 < t)] at he
    have hnone := List.filterMap_eq_nil_iff.mp he _ hq
    dsimp only at hnone
    -- translate the dict look-ups of the previous positions
    have hkeysext : (extendPaths sols M).map Prod.fst = sols.map Prod.fst := by
      rw [extendPaths, List.map_map]
      rfl
    have hnodupext : ((extendPaths sols M).map Prod.fst).Nodup := by
      rw [hkeysext]
      exact hnodup
    have hextlen : (extendPaths sols M).length = sols.length := by
      rw [extendPaths, List.length_map]
    have hlua := alookup_getD_self hnodupext a (padFun M (0, []))
      (by rw [hextlen]; exact ha)
    have hlub := alookup_getD_self hnodupext b (padFun M (0, []))
      (by rw [hextlen]; exact hb)
    rw [extendPaths_getD] at hlua hlub
    rw [show (padFun M (sols.getD a (0, []))).1 = (sols.getD a (0, [])).1 from rfl] at hlua
    rw [show (padFun M (sols.getD b (0, []))).1 = (sols.getD b (0, [])).1 from rfl] at hlub
    rw [hlua, hlub, Option.getD_some, Option.getD_some] at hnone
    rw [getD_default_irrel (show t - 1 < ((padFun M (sols.getD a (0, []))).2).length by
      rw [padFun_len hlena]; omega) _ ((0, 0) : Pos)] at hnone
    rw [getD_default_irrel (show t - 1 < ((padFun M (sols.getD b (0, []))).2).length by
      rw [padFun_len hlenb]; omega) _ ((0, 0) : Pos)] at hnone
    rw [show ((padFun M (sols.getD a (0, []))).2).getD (t - 1) ((0, 0) : Pos) =
      padPos (sols.getD a (0, [])).2 (t - 1) from padded_getD_eq_padPos (by omega) hlena] at hnone
    rw [show ((padFun M (sols.getD b (0, []))).2).getD (t - 1) ((0, 0) : Pos) =
      padPos (sols.getD b (0, [])).2 (t - 1) from padded_getD_eq_padPos (by omega) hlenb] at hnone
    rw [if_pos ⟨hcontra.1, hcontra.2⟩] at hnone
    exact absurd hnone (by simp)

/-- Completeness of the conflict scan: an empty `_find_conflicts`
result means the padded joint plan has no vertex conflict and no swap
between consecutive steps. -/
theorem conflictFree_of_findConflicts_nil {sols : Solutions}
    (h : findConflicts sols = .ok []) (hg : GoodSols sols) :
    NoVertexConflicts sols ∧ NoEdgeConflicts sols := by
  have hne : sols ≠ [] := by
    intro he
    rw [he] at h
    exact absurd h (by simp [findConflicts])
  rw [findConflicts, if_neg hne] at h
  injection h with hscan
  have hlens : ∀ x ∈ sols.map (fun p => p.2.length), 1 ≤ x := by
    intro x hx
    rcases List.mem_map.mp hx with ⟨pr, hpr, hx'⟩
    rw [← hx']
    exact List.length_pos.mpr (hg.1 pr hpr)
  have hM : calculateMakespan sols + 1 ≤
      (sols.map (fun p => p.2.length)).foldr Nat.max 0 := by
    rw [calculateMakespan, if_neg hne]
    have h2 := foldr_max_pred (by simpa using hne :
      sols.map (fun p => p.2.length) ≠ []) hlens
    rw [List.map_map] at h2
    exact h2
  have hlenle : ∀ pr ∈ sols, pr.2.length ≤
      (sols.map (fun p => p.2.length)).foldr Nat.max 0 :=
    fun pr hpr => le_foldr_max (List.mem_map_of_mem _ hpr)
  have hcore : ∀ t, t ≤ calculateMakespan sols → ∀ a b, a < b → b < sols.length →
      padPos (sols.getD a (0, [])).2 t ≠ padPos (sols.getD b (0, [])).2 t ∧
      (1 ≤ t →
        ¬(padPos (sols.getD a (0, [])).2 (t - 1) = padPos (sols.getD b (0, [])).2 t ∧
          padPos (sols.getD b (0, [])).2 (t - 1) = padPos (sols.getD a (0, [])).2 t)) := by
    intro t htm a b hab hb
    have ht : t < (sols.map (fun p => p.2.length)).foldr Nat.max 0 := by omega
    have hstept := stepConflicts_of_scan_nil _ 0 hscan t (by omega) (by omega)
    exact pair_predicates_of_step_nil hg.2 hlenle ht hstept hab hb
  constructor
  · intro i j hi hj hij t htm
    rcases Nat.lt_or_ge i j with hlt | hge
    · exact (hcore t htm i j hlt hj).1
    · have hlt : j < i := by omega
      intro heq
      exact (hcore t htm j i hlt hi).1 heq.symm
  · intro i j hi hj hij t h1t htm hcontra
    rcases Nat.lt_or_ge i j with hlt | hge
    · exact (hcore t htm i j hlt hj).2 h1t ⟨hcontra.1, hcontra.2.1⟩
    · have hlt : j < i := by omega
      exact (hcore t htm j i hlt hi).2 h1t ⟨hcontra.2.1, hcontra.1⟩

/-- Claim C1: if `CBS.search` returns a joint plan through one of its
conflict-free returns (the success case `Ok`), then every stored plan is
non-empty, the agent ids are distinct, and for every pair of distinct
agents and every time `t ≤ makespan` of the padded joint plan there is
no vertex conflict and no edge conflict. -/
theorem cbs_solved_is_conflict_free (env : GridEnvironment) (agents : List Agent)
    (config : Config) (fuel : Nat) (sols : Solutions) (ags : List Agent)
    (h : cbsSearch env agents config fuel = .ok (.solved sols, ags)) :
    (∀ pr ∈ sols, pr.2 ≠ []) ∧ (sols.map Prod.fst).Nodup ∧
      NoVertexConflicts sols ∧ NoEdgeConflicts sols := by
  rw [cbsSearch] at h
  cases hinit : findInitialSolutions env agents ConstraintsSet.empty config fuel with
  | error e =>
    rw [hinit] at h
    exact absurd h (by simp)
  | ok pr =>
    obtain ⟨rootSolutions, agents1⟩ := pr
    rw [hinit] at h
    dsimp only at h
    cases hconf : findConflicts rootSolutions with
    | error e =>
      rw [hconf] at h
      exact absurd h (by simp)
    | ok rootConflicts =>
      rw [hconf] at h
      dsimp only at h
      have hgood := findInitialSolutions_good hinit
      have hopen : GoodOpen (heappush cbsLt [] ⟨ConstraintsSet.empty, rootSolutions,
          calculateSolutionCost rootSolutions, rootConflicts⟩) := by
        intro n hn
        rcases mem_heappush hn with hn' | hn'
        · exact absurd hn' (by simp)
        · rw [hn']
          exact ⟨hconf, hgood⟩
      obtain ⟨hnil, hgs⟩ := cbsLoop_solved config.cbsMaxIterations _ agents1 sols ags h hopen
      obtain ⟨hnv, hnedge⟩ := conflictFree_of_findConflicts_nil hnil hgs
      exact ⟨hgs.1, hgs.2, hnv, hnedge⟩

/-- Witness for `cbs_solved_is_conflict_free`: the trivial 1×2
single-agent instance, solved with the plan `[(0,0), (0,1)]`. -/
theorem cbs_solved_is_conflict_free_witness :
    (∀ pr ∈ ([(0, [(0, 0), (0, 1)])] : Solutions), pr.2 ≠ []) ∧
      (([(0, [(0, 0), (0, 1)])] : Solutions).map Prod.fst).Nodup ∧
      NoVertexConflicts [(0, [(0, 0), (0, 1)])] ∧
      NoEdgeConflicts [(0, [(0, 0), (0, 1)])] :=
  cbs_solved_is_conflict_free (mkGridEnvironment [[0, 0]]) [mkAgent 0 (0, 0) (0, 1)]
    ⟨5, 5⟩ 20 [(0, [(0, 0), (0, 1)])]
    [⟨0, (0, 0), (0, 1), [(0, 0), (0, 1)], 1⟩] (by decide)

end MAPF
